import Mathlib

/-!
# PE introspection: loader walk, header inspection, sections and exports

A shallow embedding of `src/module.cpp`.

* Process memory is a total map from addresses to bytes.  Addresses are
  64-bit: every address computed by the code is reduced modulo `2 ^ 64`,
  multi-byte fields are read little-endian.
* The loader's module list is an explicit list of records in load order
  (the `InLoadOrderModuleList` walk, from `Flink` of the list head back to
  the head).
* The forward-chasing recursion between `GetExportRva` and
  `FindForwardedExportRva` has no bound in the source, so the embedding
  carries a fuel argument counting the nested `GetExportRva` activations
  that are allowed; the result `none` stands for a call that does not
  return.
* Structure layouts (`IMAGE_DOS_HEADER`, `IMAGE_NT_HEADERS64`,
  `IMAGE_SECTION_HEADER`, `IMAGE_EXPORT_DIRECTORY`) are the platform's.
-/

namespace module

/-! ## Memory -/

/-- Byte-addressed process memory. -/
abbrev Mem := Nat → Nat

/-- Reduction of an address computation to `uint64_t`. -/
def u64 (x : Nat) : Nat := x % 2 ^ 64

/-- Reduction to `uint16_t`. -/
def u16 (x : Nat) : Nat := x % 2 ^ 16

/-- The byte at address `a`. -/
def read8 (mem : Mem) (a : Nat) : Nat := mem (u64 a) % 256

/-- A little-endian `WORD` at address `a`. -/
def read16 (mem : Mem) (a : Nat) : Nat :=
  read8 mem a + 256 * read8 mem (a + 1)

/-- A little-endian `DWORD` at address `a`. -/
def read32 (mem : Mem) (a : Nat) : Nat :=
  read16 mem a + 65536 * read16 mem (a + 2)

/-- Conversion of a `LONG` bit pattern to `uint64_t` (sign extension), as
in `module_address + p_dos_header->e_lfanew`. -/
def sext32 (x : Nat) : Nat :=
  if x < 2 ^ 31 then x else x + (2 ^ 64 - 2 ^ 32)

/-- Bytes from `p` up to, not including, the first NUL; `none` when no NUL
is met within `fuel` bytes. -/
def read_until_nul (mem : Mem) : Nat → Nat → Option (List Nat)
  | 0, _ => none
  | fuel + 1, p =>
    if read8 mem p = 0 then some []
    else (read_until_nul mem fuel (p + 1)).map (fun s => read8 mem p :: s)

/-- The `std::string_view` built from a `const char*`: the bytes before the
first NUL.  The search covers the whole address space; `none` stands for a
`strlen` that never meets a terminator. -/
def c_str (mem : Mem) (p : Nat) : Option (List Nat) :=
  read_until_nul mem (2 ^ 64) p

/-! ## Platform constants and layouts -/

def IMAGE_DOS_SIGNATURE : Nat := 0x5A4D
def IMAGE_NT_SIGNATURE : Nat := 0x00004550
def IMAGE_NT_OPTIONAL_HDR64_MAGIC : Nat := 0x20b

/-- Address of `IMAGE_NT_HEADERS`:
`module_address + p_dos_header->e_lfanew` (`e_lfanew` at offset 60). -/
def nt_header (mem : Mem) (module_address : Nat) : Nat :=
  u64 (module_address + sext32 (read32 mem (module_address + 60)))

/-- One record of the loader's module list: the fields the code reads.
`BaseDllName` holds the wide characters of `BaseDllName.Buffer`. -/
structure LDR_DATA_TABLE_ENTRY where
  DllBase : Nat
  BaseDllName : List Nat
  deriving DecidableEq

/-- The `std::wstring_view` (or `std::string_view`) built from a pointer to
a buffer with the given contents: the characters before the first NUL. -/
def view_of_buffer (buffer : List Nat) : List Nat :=
  buffer.takeWhile (fun c => c != 0)

/-- The function `std::towlower` in the "C" locale: only `A`-`Z` are mapped. -/
def towlower (c : Nat) : Nat :=
  if 65 ≤ c ∧ c ≤ 90 then c + 32 else c

/-- The call `std::ranges::equal(a, b, pred)`: equal lengths and `pred` on every
pair of corresponding elements. -/
def ranges_equal (pred : Nat → Nat → Bool) : List Nat → List Nat → Bool
  | [], [] => true
  | a :: as, b :: bs => pred a b && ranges_equal pred as bs
  | _, _ => false

/-! ## Loader walker -/

/-- The function `module::GetModuleAddress(const std::wstring_view&)`, on
the loader list `mods` in load order. -/
def GetModuleAddress (mem : Mem) :
    List LDR_DATA_TABLE_ENTRY → List Nat → Nat × Nat
  | [], _ => (0, 0)
  | p_entry :: rest, w_module_name =>
    if ranges_equal (fun a b => towlower a == towlower b) w_module_name
        (view_of_buffer p_entry.BaseDllName) then
      let module_address := p_entry.DllBase
      if read16 mem module_address ≠ IMAGE_DOS_SIGNATURE then
        GetModuleAddress mem rest w_module_name
      else
        let p_nt_header := nt_header mem module_address
        if read32 mem p_nt_header ≠ IMAGE_NT_SIGNATURE then
          GetModuleAddress mem rest w_module_name
        else if read16 mem (p_nt_header + 24) ≠ IMAGE_NT_OPTIONAL_HDR64_MAGIC then
          GetModuleAddress mem rest w_module_name
        else
          (module_address, read32 mem (p_nt_header + 80))
    else
      GetModuleAddress mem rest w_module_name

/-- The conversion `mbstowcs_s(&converted, dst, _, src, count)` in the "C"
locale: at most `count` characters of `src`, stopping at a NUL, each byte
widened to one wide character. -/
def mbstowcs_s (src : List Nat) (count : Nat) : List Nat :=
  view_of_buffer (src.take count)

/-- The function `module::GetModuleAddress(const std::string_view&)`: the narrow name is
converted into a zero-filled buffer of `size + 1` wide characters, and the
wide overload is called on the pointer to that buffer. -/
def GetModuleAddressNarrow (mem : Mem) (mods : List LDR_DATA_TABLE_ENTRY)
    (module_name : List Nat) : Nat × Nat :=
  let w_size := module_name.length
  let w_module_name := mbstowcs_s module_name w_size ++ [0]
  GetModuleAddress mem mods (view_of_buffer w_module_name)

/-! ## Header inspector -/

/-- The function `module::GetModuleSize`: `OptionalHeader.SizeOfImage`. -/
def GetModuleSize (mem : Mem) (module_address : Nat) : Nat :=
  let p_nt_header := nt_header mem module_address
  read32 mem (p_nt_header + 80)

/-! ## Section locator -/

/-- The call `strnlen_s(str, max)`: zero for a null pointer, otherwise the number of
bytes before the first NUL among the first `max`. -/
def strnlen_s (mem : Mem) (str : Nat) (max : Nat) : Nat :=
  if str = 0 then 0
  else ((List.range max).map (fun k => read8 mem (str + k))).takeWhile
    (fun c => c != 0) |>.length

/-- The view
`std::string_view(found_section_name, strnlen_s(found_section_name, 8))`. -/
def found_section_name (mem : Mem) (p : Nat) : List Nat :=
  (List.range (strnlen_s mem p 8)).map (fun k => read8 mem (p + k))

/-- The address `IMAGE_FIRST_SECTION(p_nt_header)`: the optional header starts at
offset 24 and `FileHeader.SizeOfOptionalHeader` is the `WORD` at offset 20. -/
def IMAGE_FIRST_SECTION (mem : Mem) (p_nt_header : Nat) : Nat :=
  u64 (p_nt_header + 24 + read16 mem (p_nt_header + 20))

/-- Address of `section_array[i]` (`IMAGE_SECTION_HEADER` is 40 bytes). -/
def section_at (section_array i : Nat) : Nat :=
  u64 (section_array + 40 * i)

/-- The loop of `GetSectionRva`, from index `i` with `n` iterations left. -/
def GetSectionRva_loop (mem : Mem) (section_array : Nat)
    (section_name : List Nat) : Nat → Nat → Nat × Nat
  | 0, _ => (0, 0)
  | n + 1, i =>
    if section_name = found_section_name mem (section_at section_array i) then
      (read32 mem (section_at section_array i + 12),
       read32 mem (section_at section_array i + 8))
    else GetSectionRva_loop mem section_array section_name n (i + 1)

/-- The function `module::GetSectionRva`; `FileHeader.NumberOfSections` is the `WORD`
at offset 6 of the NT headers. -/
def GetSectionRva (mem : Mem) (module_address : Nat)
    (section_name : List Nat) : Nat × Nat :=
  let p_nt_header := nt_header mem module_address
  let section_array := IMAGE_FIRST_SECTION mem p_nt_header
  GetSectionRva_loop mem section_array section_name
    (read16 mem (p_nt_header + 6)) 0

/-- The function `module::GetSectionAddress`. -/
def GetSectionAddress (mem : Mem) (module_address : Nat)
    (section_name : List Nat) : Nat × Nat :=
  let r := GetSectionRva mem module_address section_name
  if r.1 = 0 then (0, 0)
  else (u64 (module_address + r.1), r.2)

/-! ## Export resolver -/

/-- Address of the export directory:
`module_address + DataDirectory[IMAGE_DIRECTORY_ENTRY_EXPORT].VirtualAddress`
(the data directory starts at offset 136 of the NT headers). -/
def export_directory (mem : Mem) (module_address : Nat) : Nat :=
  u64 (module_address + read32 mem (nt_header mem module_address + 136))

/-- The field `DataDirectory[IMAGE_DIRECTORY_ENTRY_EXPORT].Size`. -/
def export_directory_size (mem : Mem) (module_address : Nat) : Nat :=
  read32 mem (nt_header mem module_address + 140)

/-- The field `p_export_directory->Base`. -/
def Base (mem : Mem) (module_address : Nat) : Nat :=
  read32 mem (export_directory mem module_address + 16)

/-- The field `p_export_directory->NumberOfFunctions`. -/
def NumberOfFunctions (mem : Mem) (module_address : Nat) : Nat :=
  read32 mem (export_directory mem module_address + 20)

/-- The field `p_export_directory->NumberOfNames`. -/
def NumberOfNames (mem : Mem) (module_address : Nat) : Nat :=
  read32 mem (export_directory mem module_address + 24)

/-- The pointer `module_address + p_export_directory->AddressOfFunctions`. -/
def function_array (mem : Mem) (module_address : Nat) : Nat :=
  u64 (module_address + read32 mem (export_directory mem module_address + 28))

/-- The pointer `module_address + p_export_directory->AddressOfNames`. -/
def name_array (mem : Mem) (module_address : Nat) : Nat :=
  u64 (module_address + read32 mem (export_directory mem module_address + 32))

/-- The pointer `module_address + p_export_directory->AddressOfNameOrdinals`. -/
def entry_index_array (mem : Mem) (module_address : Nat) : Nat :=
  u64 (module_address + read32 mem (export_directory mem module_address + 36))

/-- The `uint16_t` read `entry_index_array[i]`. -/
def entry_index (mem : Mem) (module_address i : Nat) : Nat :=
  read16 mem (entry_index_array mem module_address + 2 * i)

/-- The value
`static_cast<uint16_t>(p_export_directory->Base) + entry_index_array[i]`
stored into a `uint16_t`. -/
def found_ordinal (mem : Mem) (module_address i : Nat) : Nat :=
  u16 (u16 (Base mem module_address) + entry_index mem module_address i)

/-- The string at `module_address + name_array[i]`. -/
def found_export_name (mem : Mem) (module_address i : Nat) : Option (List Nat) :=
  c_str mem (u64 (module_address + read32 mem (name_array mem module_address + 4 * i)))

/-- The read `function_array[entry_index_array[i]]`. -/
def function_rva_at (mem : Mem) (module_address i : Nat) : Nat :=
  read32 mem (function_array mem module_address + 4 * entry_index mem module_address i)

/-- The test of `GetExportRva` for a forward string: the export address
lies in the export directory's range. -/
def is_forward (mem : Mem) (module_address function_rva : Nat) : Bool :=
  decide (export_directory mem module_address ≤ u64 (module_address + function_rva) ∧
    u64 (module_address + function_rva) <
      u64 (export_directory mem module_address + export_directory_size mem module_address))

/-- Lines 114-124 of `GetExportRva`: what is returned once slot `i` has
matched.  `fwd` is the call of `FindForwardedExportRva`. -/
def resolve_slot (fwd : List Nat → Option Nat) (mem : Mem)
    (module_address i : Nat) : Option Nat :=
  let function_rva := function_rva_at mem module_address i
  let export_address := u64 (module_address + function_rva)
  if is_forward mem module_address function_rva then
    (c_str mem export_address).bind fwd
  else
    some function_rva

/-- The loop of `GetExportRva`, from index `i` with `n` iterations left. -/
def GetExportRva_loop (fwd : List Nat → Option Nat) (mem : Mem)
    (module_address : Nat) (export_name : List Nat) (by_ordinal : Bool)
    (ordinal : Nat) : Nat → Nat → Option Nat
  | 0, _ => some 0
  | n + 1, i =>
    if by_ordinal then
      if ordinal ≠ found_ordinal mem module_address i then
        GetExportRva_loop fwd mem module_address export_name by_ordinal ordinal n (i + 1)
      else
        resolve_slot fwd mem module_address i
    else
      if NumberOfNames mem module_address ≤ i then
        some 0
      else
        match found_export_name mem module_address i with
        | none => none
        | some found =>
          if export_name ≠ found then
            GetExportRva_loop fwd mem module_address export_name by_ordinal ordinal n (i + 1)
          else
            resolve_slot fwd mem module_address i

/-- The call `forward_string.find(c)`: index of the first occurrence. -/
def find_char (c : Nat) : List Nat → Option Nat
  | [] => none
  | x :: xs => if x = c then some 0 else (find_char c xs).map (· + 1)

/-- The body of `module::FindForwardedExportRva`; `callee` is the call
`GetExportRva(module_address, export_name)` of its last line. -/
def FindForwardedExportRva_body (callee : Nat → List Nat → Option Nat)
    (mem : Mem) (mods : List LDR_DATA_TABLE_ENTRY)
    (forward_string : List Nat) : Option Nat :=
  match find_char 46 forward_string with
  | none => some 0
  | some pos =>
    let split_off := pos + 1
    let w_module_name := mbstowcs_s forward_string split_off ++ [100, 108, 108] ++ [0]
    let r := GetModuleAddress mem mods (view_of_buffer w_module_name)
    if r.1 = 0 then some 0
    else callee r.1 (forward_string.drop split_off)

/-- The function `module::GetExportRva`.  The first argument after the module list
bounds the nesting of `GetExportRva` activations; `none` is a call that
does not return within it. -/
def GetExportRva (mem : Mem) (mods : List LDR_DATA_TABLE_ENTRY) :
    Nat → Nat → List Nat → Bool → Nat → Option Nat
  | 0, _, _, _, _ => none
  | fuel + 1, module_address, export_name, by_ordinal, ordinal =>
    GetExportRva_loop
      (FindForwardedExportRva_body
        (fun a s => GetExportRva mem mods fuel a s false 0) mem mods)
      mem module_address export_name by_ordinal ordinal
      (NumberOfFunctions mem module_address) 0

/-- The function `module::FindForwardedExportRva`, with `fuel` nested `GetExportRva`
activations allowed. -/
def FindForwardedExportRva (mem : Mem) (mods : List LDR_DATA_TABLE_ENTRY)
    (fuel : Nat) (forward_string : List Nat) : Option Nat :=
  FindForwardedExportRva_body
    (fun a s => GetExportRva mem mods fuel a s false 0) mem mods forward_string

/-- The function `module::GetExportAddress`. -/
def GetExportAddress (mem : Mem) (mods : List LDR_DATA_TABLE_ENTRY)
    (fuel module_address : Nat) (export_name : List Nat) (by_ordinal : Bool)
    (ordinal : Nat) : Option Nat :=
  (GetExportRva mem mods fuel module_address export_name by_ordinal ordinal).map
    (fun export_rva => if export_rva = 0 then 0 else u64 (module_address + export_rva))

/-! ## Specification-side notions -/

/-- Case-insensitive equality of two wide names: same length, and
`towlower`-equal character by character. -/
def name_matches (requested name : List Nat) : Prop :=
  requested.length = name.length ∧
    ∀ i, i < requested.length → towlower (requested.getD i 0) = towlower (name.getD i 0)

instance (requested name : List Nat) : Decidable (name_matches requested name) := by
  delta name_matches; infer_instance

/-- The three header checks of the header inspector: DOS signature, NT
signature, 64-bit optional-header magic. -/
def headers_pass (mem : Mem) (base : Nat) : Prop :=
  read16 mem base = IMAGE_DOS_SIGNATURE ∧
  read32 mem (nt_header mem base) = IMAGE_NT_SIGNATURE ∧
  read16 mem (nt_header mem base + 24) = IMAGE_NT_OPTIONAL_HDR64_MAGIC

instance (mem : Mem) (base : Nat) : Decidable (headers_pass mem base) := by
  delta headers_pass; infer_instance

/-- A loader record qualifies for a requested name: its `BaseDllName`
matches and its image passes the header checks. -/
def qualifies (mem : Mem) (requested : List Nat) (e : LDR_DATA_TABLE_ENTRY) : Bool :=
  decide (name_matches requested (view_of_buffer e.BaseDllName) ∧ headers_pass mem e.DllBase)

/-- The field `FileHeader.NumberOfSections` of the image at `base`. -/
def NumberOfSections (mem : Mem) (base : Nat) : Nat :=
  read16 mem (nt_header mem base + 6)

/-- Address of the `i`-th section header of the image at `base`. -/
def section_header (mem : Mem) (base i : Nat) : Nat :=
  section_at (IMAGE_FIRST_SECTION mem (nt_header mem base)) i

/-- The 8 bytes of the `Name` field of the section header at `p`. -/
def Name_field (mem : Mem) (p : Nat) : List Nat :=
  (List.range 8).map (fun k => read8 mem (p + k))

/-- The `Name` field truncated at its first NUL byte, if it has one. -/
def truncated_name (mem : Mem) (p : Nat) : List Nat :=
  (Name_field mem p).takeWhile (fun c => c != 0)

/-- The pair `(VirtualAddress, Misc.VirtualSize)` of the section header at `p`. -/
def section_result (mem : Mem) (p : Nat) : Nat × Nat :=
  (read32 mem (p + 12), read32 mem (p + 8))

/-- The name at slot `k` is a terminated string other than `name`. -/
def name_differs (mem : Mem) (base : Nat) (name : List Nat) (k : Nat) : Prop :=
  found_export_name mem base k ≠ none ∧ found_export_name mem base k ≠ some name

instance (mem : Mem) (base : Nat) (name : List Nat) (k : Nat) :
    Decidable (name_differs mem base name k) := by
  delta name_differs; infer_instance

/-- Slot `i` is the slot at which the loop of `GetExportRva` finds its
match: it is below `NumberOfFunctions` and, by ordinal, it is the least
slot whose computed ordinal is the requested one; by name, it is below
`NumberOfNames` and is the least slot whose name string is the requested
name. -/
def matched_slot (mem : Mem) (base : Nat) (name : List Nat) (by_ordinal : Bool)
    (ordinal i : Nat) : Prop :=
  i < NumberOfFunctions mem base ∧
  if by_ordinal = true then
    ordinal = found_ordinal mem base i ∧ ∀ k, k < i → ordinal ≠ found_ordinal mem base k
  else
    i < NumberOfNames mem base ∧ found_export_name mem base i = some name ∧
      ∀ k, k < i → name_differs mem base name k

instance (mem : Mem) (base : Nat) (name : List Nat) (by_ordinal : Bool) (ordinal i : Nat) :
    Decidable (matched_slot mem base name by_ordinal ordinal i) := by
  delta matched_slot; infer_instance

/-- The export address `module_address + function_rva` lies in the
half-open range of the export directory, in the code's 64-bit arithmetic. -/
def in_export_directory (mem : Mem) (base function_rva : Nat) : Prop :=
  export_directory mem base ≤ u64 (base + function_rva) ∧
    u64 (base + function_rva) <
      u64 (export_directory mem base + export_directory_size mem base)

instance (mem : Mem) (base function_rva : Nat) :
    Decidable (in_export_directory mem base function_rva) := by
  delta in_export_directory; infer_instance

/-- The export `name` of module `A`, matched by name at slot `i`, is a
forward string `M.target` whose module `M.dll` resolves to the loaded
module `B`. -/
def forwards_to (mem : Mem) (mods : List LDR_DATA_TABLE_ENTRY) (A : Nat) (name : List Nat)
    (i : Nat) (M target : List Nat) (B : Nat) : Prop :=
  matched_slot mem A name false 0 i ∧
  in_export_directory mem A (function_rva_at mem A i) ∧
  c_str mem (u64 (A + function_rva_at mem A i)) = some (M ++ 46 :: target) ∧
  46 ∉ M ∧ 0 ∉ M ∧
  (GetModuleAddress mem mods (M ++ [46, 100, 108, 108])).1 = B ∧ B ≠ 0

instance (mem : Mem) (mods : List LDR_DATA_TABLE_ENTRY) (A : Nat) (name : List Nat)
    (i : Nat) (M target : List Nat) (B : Nat) :
    Decidable (forwards_to mem mods A name i M target B) := by
  delta forwards_to; infer_instance

/-! ## Concrete images -/

/-- Little-endian bytes of a `WORD`. -/
def le16 (x : Nat) : List Nat := [x % 256, x / 256 % 256]

/-- Little-endian bytes of a `DWORD`. -/
def le32 (x : Nat) : List Nat := le16 (x % 65536) ++ le16 (x / 65536)

/-- The memory holding the given byte runs (start address, bytes) and zero
everywhere else. -/
def mem_of (segs : List (Nat × List Nat)) : Mem := fun a =>
  match segs.find? (fun s => decide (s.1 ≤ a ∧ a < s.1 + s.2.length)) with
  | some s => s.2.getD (a - s.1) 0
  | none => 0

/-- Headers of a 64-bit image at `base`: DOS header with `e_lfanew = 0x80`,
NT headers with a 240-byte optional header, so that the section table
starts at `base + 0x188`. -/
def image_headers (base size_of_image sections export_rva export_size : Nat) :
    List (Nat × List Nat) :=
  [(base, [0x4D, 0x5A]), (base + 60, le32 0x80),
   (base + 0x80, [0x50, 0x45, 0, 0]),
   (base + 0x80 + 6, le16 sections),
   (base + 0x80 + 20, le16 240),
   (base + 0x80 + 24, le16 0x20b),
   (base + 0x80 + 80, le32 size_of_image),
   (base + 0x80 + 136, le32 export_rva ++ le32 export_size)]

/-- An `IMAGE_EXPORT_DIRECTORY` at `base + 0x1000` with the function array
at RVA `0x1040`, the name array at `0x1050` and the index array at
`0x1060`. -/
def export_tables (base ordinal_base : Nat) (functions names indices : List Nat) (number_of_functions number_of_names : Nat) :
    List (Nat × List Nat) :=
  [(base + 0x1000 + 16, le32 ordinal_base ++ le32 number_of_functions ++
      le32 number_of_names ++ le32 0x1040 ++ le32 0x1050 ++ le32 0x1060),
   (base + 0x1040, functions.flatMap le32),
   (base + 0x1050, names.flatMap le32),
   (base + 0x1060, indices.flatMap le16)]

/-- Module `a.dll` at `0x10000`: export `f` (ordinal 5) is the forward
string `b.g` at RVA `0x1090`, export `h` (ordinal 6) is code at RVA
`0x2000`.  Module `b.dll` at `0x20000`: export `g` is code at RVA `0x1234`. -/
def mem_ab : Mem := mem_of (
  image_headers 0x10000 0x3000 0 0x1000 0x100 ++
  export_tables 0x10000 5 [0x1090, 0x2000] [0x1080, 0x1084] [0, 1] 2 2 ++
  [(0x10000 + 0x1080, [102, 0]), (0x10000 + 0x1084, [104, 0]),
   (0x10000 + 0x1090, [98, 46, 103, 0])] ++
  image_headers 0x20000 0x4000 0 0x1000 0x100 ++
  export_tables 0x20000 1 [0x1234] [0x1080] [0] 1 1 ++
  [(0x20000 + 0x1080, [103, 0])])

/-- The loader list of `mem_ab`. -/
def mods_ab : List LDR_DATA_TABLE_ENTRY :=
  [⟨0x10000, [97, 46, 100, 108, 108, 0]⟩, ⟨0x20000, [66, 46, 68, 76, 76, 0]⟩]

/-- An image at `0x400000` with three sections: `.textABC` (all 8 bytes of
the name used), `.text` and `.data`. -/
def mem_sections : Mem := mem_of (
  image_headers 0x400000 0x5000 3 0 0 ++
  [(0x400000 + 0x188, [46, 116, 101, 120, 116, 65, 66, 67] ++ le32 0x500 ++ le32 0x1000),
   (0x400000 + 0x188 + 40, [46, 116, 101, 120, 116, 0, 0, 0] ++ le32 0x300 ++ le32 0x2000),
   (0x400000 + 0x188 + 80, [46, 100, 97, 116, 97, 0, 0, 0] ++ le32 0x200 ++ le32 0x3000)])

/-- A cyclic forward chain: export `f` of `a.dll` (at `0x10000`) is the
forward string `b.g`, and export `g` of `b.dll` (at `0x20000`) is the
forward string `a.f`. -/
def mem_cycle : Mem := mem_of (
  image_headers 0x10000 0x3000 0 0x1000 0x100 ++
  export_tables 0x10000 1 [0x1090] [0x1080] [0] 1 1 ++
  [(0x10000 + 0x1080, [102, 0]), (0x10000 + 0x1090, [98, 46, 103, 0])] ++
  image_headers 0x20000 0x3000 0 0x1000 0x100 ++
  export_tables 0x20000 1 [0x1090] [0x1080] [0] 1 1 ++
  [(0x20000 + 0x1080, [103, 0]), (0x20000 + 0x1090, [97, 46, 102, 0])])

/-- The loader list of `mem_cycle`. -/
def mods_cycle : List LDR_DATA_TABLE_ENTRY :=
  [⟨0x10000, [97, 46, 100, 108, 108, 0]⟩, ⟨0x20000, [98, 46, 100, 108, 108, 0]⟩]

/-- An image at `0x10000` with one function (code at RVA `0x2000`) exported
under the two names `x` and `y`: `NumberOfFunctions = 1`,
`NumberOfNames = 2`. -/
def mem_two_names : Mem := mem_of (
  image_headers 0x10000 0x3000 0 0x1000 0x100 ++
  export_tables 0x10000 1 [0x2000] [0x1080, 0x1084] [0, 0] 1 2 ++
  [(0x10000 + 0x1080, [120, 0]), (0x10000 + 0x1084, [121, 0])])

/-- The loop of `GetExportRva` together with the indices at which it reads
`entry_index_array`, in order, from index `i` with `n` iterations left:
line 100 reads the array in every by-ordinal iteration, line 115 reads it
once more at the slot that matched, in either mode. -/
def GetExportRva_loop_traced (fwd : List Nat → Option Nat) (mem : Mem)
    (module_address : Nat) (export_name : List Nat) (by_ordinal : Bool)
    (ordinal : Nat) : Nat → Nat → Option Nat × List Nat
  | 0, _ => (some 0, [])
  | n + 1, i =>
    if by_ordinal then
      if ordinal ≠ found_ordinal mem module_address i then
        let r := GetExportRva_loop_traced fwd mem module_address export_name by_ordinal
          ordinal n (i + 1)
        (r.1, i :: r.2)
      else
        (resolve_slot fwd mem module_address i, [i, i])
    else
      if NumberOfNames mem module_address ≤ i then
        (some 0, [])
      else
        match found_export_name mem module_address i with
        | none => (none, [])
        | some found =>
          if export_name ≠ found then
            GetExportRva_loop_traced fwd mem module_address export_name by_ordinal
              ordinal n (i + 1)
          else
            (resolve_slot fwd mem module_address i, [i])

/-- One activation of `GetExportRva` (the call with `fuel + 1` nested
activations allowed) with the indices at which it reads
`entry_index_array`. -/
def GetExportRva_traced (mem : Mem) (mods : List LDR_DATA_TABLE_ENTRY)
    (fuel module_address : Nat) (export_name : List Nat) (by_ordinal : Bool)
    (ordinal : Nat) : Option Nat × List Nat :=
  GetExportRva_loop_traced (FindForwardedExportRva mem mods fuel) mem module_address
    export_name by_ordinal ordinal (NumberOfFunctions mem module_address) 0

/-- The name `name` is a part of `full` other than the whole of it (a
proper prefix, suffix or inner substring). -/
def proper_part (name full : List Nat) : Prop :=
  ∃ s t, full = s ++ name ++ t ∧ (s ≠ [] ∨ t ≠ [])

/-- A loader list with the one record `Kernel32.dll`, at the base
`0x10000` of the first image of `mem_ab`. -/
def mods_kernel32 : List LDR_DATA_TABLE_ENTRY :=
  [⟨0x10000, [75, 101, 114, 110, 101, 108, 51, 50, 46, 100, 108, 108, 0]⟩]

/-- An image at `0x10000` with two functions (code at RVAs `0x2000` and
`0x2100`, ordinals 1 and 2) of which only the first has a name, `x`:
`NumberOfFunctions = 2`, `NumberOfNames = 1`, and the index array holds
the single entry 0. -/
def mem_ordinal_only : Mem := mem_of (
  image_headers 0x10000 0x3000 0 0x1000 0x100 ++
  export_tables 0x10000 1 [0x2000, 0x2100] [0x1080] [0] 2 1 ++
  [(0x10000 + 0x1080, [120, 0])])

/-! # Theorems -/

/-! ## Loader walker: proofs -/

theorem name_matches_cons (a b : Nat) (as bs : List Nat) :
    name_matches (a :: as) (b :: bs) ↔ towlower a = towlower b ∧ name_matches as bs := by
  unfold name_matches
  constructor
  · rintro ⟨hl, h⟩
    refine ⟨by simpa using h 0 (by simp), by simpa using hl, fun i hi => ?_⟩
    simpa using h (i + 1) (by simpa using hi)
  · rintro ⟨h0, hl, h⟩
    refine ⟨by simpa using hl, fun i hi => ?_⟩
    cases i with
    | zero => simpa using h0
    | succ j => simpa using h j (by simpa using hi)

theorem ranges_equal_iff (a b : List Nat) :
    ranges_equal (fun x y => towlower x == towlower y) a b = true ↔ name_matches a b := by
  induction a generalizing b with
  | nil =>
    cases b with
    | nil => simp [ranges_equal, name_matches]
    | cons y ys => simp [ranges_equal, name_matches]
  | cons x xs ih =>
    cases b with
    | nil => simp [ranges_equal, name_matches]
    | cons y ys =>
      rw [name_matches_cons, ← ih]
      simp [ranges_equal]

/-- C1: the wide `GetModuleAddress` returns `(DllBase, SizeOfImage)` of the
first record in load order whose `BaseDllName` matches the requested name
case-insensitively and whose image passes the three header checks; records
that match by name but fail a check are passed over, and `(0, 0)` is the
result when no record qualifies. -/
theorem GetModuleAddress_first_qualifying (mem : Mem)
    (mods : List LDR_DATA_TABLE_ENTRY) (w_module_name : List Nat) :
    GetModuleAddress mem mods w_module_name =
      match mods.find? (qualifies mem w_module_name) with
      | some e => (e.DllBase, read32 mem (nt_header mem e.DllBase + 80))
      | none => (0, 0) := by
  induction mods with
  | nil => simp [GetModuleAddress]
  | cons e rest ih =>
    unfold GetModuleAddress
    by_cases hn : name_matches w_module_name (view_of_buffer e.BaseDllName)
    · rw [if_pos ((ranges_equal_iff _ _).2 hn)]
      by_cases h1 : read16 mem e.DllBase = IMAGE_DOS_SIGNATURE
      · by_cases h2 : read32 mem (nt_header mem e.DllBase) = IMAGE_NT_SIGNATURE
        · by_cases h3 : read16 mem (nt_header mem e.DllBase + 24) = IMAGE_NT_OPTIONAL_HDR64_MAGIC
          · have hq : qualifies mem w_module_name e = true := by
              simp [qualifies, headers_pass, hn, h1, h2, h3]
            simp [h1, h2, h3, List.find?, hq]
          · have hq : qualifies mem w_module_name e = false := by
              simp [qualifies, headers_pass, h3]
            simp [h1, h2, h3, List.find?, hq, ih]
        · have hq : qualifies mem w_module_name e = false := by
            simp [qualifies, headers_pass, h2]
          simp [h1, h2, List.find?, hq, ih]
      · have hq : qualifies mem w_module_name e = false := by
          simp [qualifies, headers_pass, h1]
        simp [h1, List.find?, hq, ih]
    · have hr : ¬ ranges_equal (fun a b => towlower a == towlower b) w_module_name
          (view_of_buffer e.BaseDllName) = true := fun h => hn ((ranges_equal_iff _ _).1 h)
      have hq : qualifies mem w_module_name e = false := by
        simp [qualifies, hn]
      rw [if_neg hr]
      simp [List.find?, hq, ih]

/-! ## Section locator: proofs -/

theorem takeWhile_eq_take_length (q : Nat → Bool) (l : List Nat) :
    l.takeWhile q = l.take (l.takeWhile q).length := by
  induction l with
  | nil => simp
  | cons x xs ih =>
    by_cases hx : q x = true
    · simp only [List.takeWhile_cons, hx, if_true, List.length_cons, List.take_succ_cons]
      rw [← ih]
    · simp [List.takeWhile_cons, hx]

theorem takeWhile_length_le (q : Nat → Bool) (l : List Nat) :
    (l.takeWhile q).length ≤ l.length := by
  induction l with
  | nil => simp
  | cons x xs ih =>
    by_cases hx : q x = true
    · simp [List.takeWhile_cons, hx, ih]
    · simp [List.takeWhile_cons, hx]

theorem found_section_name_eq (mem : Mem) (p : Nat) (hp : p ≠ 0) :
    found_section_name mem p = truncated_name mem p := by
  unfold found_section_name truncated_name strnlen_s Name_field
  rw [if_neg hp]
  have hle := takeWhile_length_le (fun c => c != 0)
    ((List.range 8).map (fun k => read8 mem (p + k)))
  rw [List.length_map, List.length_range] at hle
  conv_rhs => rw [takeWhile_eq_take_length]
  rw [← List.map_take, List.take_range, Nat.min_eq_left hle]

theorem found_section_name_length_le (mem : Mem) (p : Nat) :
    (found_section_name mem p).length ≤ 8 := by
  unfold found_section_name strnlen_s
  split
  · simp
  · have hle := takeWhile_length_le (fun c => c != 0)
      ((List.range 8).map (fun k => read8 mem (p + k)))
    simpa using hle

theorem GetSectionRva_loop_eq (mem : Mem) (arr : Nat) (name : List Nat) (n i : Nat) :
    GetSectionRva_loop mem arr name n i =
      match (List.range' i n).find?
          (fun k => decide (name = found_section_name mem (section_at arr k))) with
      | some k => section_result mem (section_at arr k)
      | none => (0, 0) := by
  induction n generalizing i with
  | zero => simp [GetSectionRva_loop]
  | succ n ih =>
    rw [GetSectionRva_loop, List.range'_succ]
    by_cases h : name = found_section_name mem (section_at arr i)
    · simp [List.find?, h, section_result]
    · simp [List.find?, h, ih]

theorem find_congr {p q : Nat → Bool} (l : List Nat) (h : ∀ x ∈ l, p x = q x) :
    l.find? p = l.find? q := by
  induction l with
  | nil => rfl
  | cons x xs ih =>
    have hx := h x (List.mem_cons_self _ _)
    have ih2 := ih (fun y hy => h y (List.mem_cons_of_mem _ hy))
    simp [List.find?, hx, ih2]

theorem GetSectionRva_eq_find (mem : Mem) (base : Nat) (name : List Nat) :
    GetSectionRva mem base name =
      match (List.range (NumberOfSections mem base)).find?
          (fun k => decide (name = found_section_name mem (section_header mem base k))) with
      | some k => section_result mem (section_header mem base k)
      | none => (0, 0) := by
  unfold GetSectionRva
  simp only [GetSectionRva_loop_eq, List.range_eq_range', NumberOfSections, section_header]

/-- The loop of `GetSectionRva` as a search for the first truncated `Name`
field equal to the request. -/
theorem GetSectionRva_find_truncated (mem : Mem) (base : Nat) (section_name : List Nat)
    (hnn : ∀ i, i < NumberOfSections mem base → section_header mem base i ≠ 0) :
    GetSectionRva mem base section_name =
      match (List.range (NumberOfSections mem base)).find?
          (fun i => decide (section_name = truncated_name mem (section_header mem base i))) with
      | some i => (read32 mem (section_header mem base i + 12),
                   read32 mem (section_header mem base i + 8))
      | none => (0, 0) := by
  rw [GetSectionRva_eq_find]
  have hc : (List.range (NumberOfSections mem base)).find?
        (fun k => decide (section_name = found_section_name mem (section_header mem base k))) =
      (List.range (NumberOfSections mem base)).find?
        (fun i => decide (section_name = truncated_name mem (section_header mem base i))) := by
    apply find_congr
    intro x hx
    rw [found_section_name_eq mem _ (hnn x (List.mem_range.1 hx))]
  rw [hc]
  rfl

/-- C8: `GetSectionRva` returns `(VirtualAddress, VirtualSize)` of the first
section-table entry below `NumberOfSections` whose `Name` field, truncated
at its first NUL byte or at 8 bytes, equals the requested name; only the 8
bytes of the field enter the comparison.  Section headers lie at non-null
addresses. -/
theorem GetSectionRva_first_match (mem : Mem) (base : Nat) (section_name : List Nat)
    (hnn : ∀ i, i < NumberOfSections mem base → section_header mem base i ≠ 0) :
    GetSectionRva mem base section_name =
      match (List.range (NumberOfSections mem base)).find?
          (fun i => decide (section_name = truncated_name mem (section_header mem base i))) with
      | some i => (read32 mem (section_header mem base i + 12),
                   read32 mem (section_header mem base i + 8))
      | none => (0, 0) :=
  GetSectionRva_find_truncated mem base section_name hnn

theorem GetSectionRva_first_match_witness :
    (∀ i, i < NumberOfSections mem_sections 0x400000 →
      section_header mem_sections 0x400000 i ≠ 0) ∧
    GetSectionRva mem_sections 0x400000 [46, 116, 101, 120, 116] = (0x2000, 0x300) :=
  ⟨by decide,
   (GetSectionRva_first_match mem_sections 0x400000 [46, 116, 101, 120, 116]
     (by decide)).trans (by decide)⟩

theorem find_range'_first (P : Nat → Bool) (n s i : Nat) (hs : s ≤ i) (hi : i < s + n)
    (hP : P i = true) (hlt : ∀ k, s ≤ k → k < i → P k = false) :
    (List.range' s n).find? P = some i := by
  induction n generalizing s with
  | zero => omega
  | succ n ih =>
    rw [List.range'_succ]
    by_cases hsi : s = i
    · subst hsi; simp [List.find?, hP]
    · have hf : P s = false := hlt s (le_refl _) (by omega)
      simp only [List.find?, hf]
      exact ih (s + 1) (by omega) (by omega) (fun k hk1 hk2 => hlt k (by omega) hk2)

theorem find_range_first (P : Nat → Bool) (n i : Nat) (hi : i < n)
    (hP : P i = true) (hlt : ∀ k, k < i → P k = false) :
    (List.range n).find? P = some i := by
  rw [List.range_eq_range']
  exact find_range'_first P n 0 i (Nat.zero_le _) (by omega) hP (fun k _ hk => hlt k hk)

theorem find_range_none (P : Nat → Bool) (n : Nat) (h : ∀ k, k < n → P k = false) :
    (List.range n).find? P = none := by
  rw [List.find?_eq_none]
  intro x hx
  simp [h x (List.mem_range.1 hx)]

/-- C9: a section name that equals no section-table entry's truncated name,
in particular every name longer than 8 bytes, makes both `GetSectionRva`
and `GetSectionAddress` return `(0, 0)`. -/
theorem GetSection_absent (mem : Mem) (base : Nat) (section_name : List Nat)
    (h : (∀ i, i < NumberOfSections mem base →
            section_header mem base i ≠ 0 ∧
            truncated_name mem (section_header mem base i) ≠ section_name) ∨
         8 < section_name.length) :
    GetSectionRva mem base section_name = (0, 0) ∧
    GetSectionAddress mem base section_name = (0, 0) := by
  have hr : GetSectionRva mem base section_name = (0, 0) := by
    rw [GetSectionRva_eq_find, find_range_none]
    intro k hk
    rw [decide_eq_false_iff_not]
    intro he
    rcases h with h | h
    · obtain ⟨h0, h1⟩ := h k hk
      rw [found_section_name_eq mem _ h0] at he
      exact h1 he.symm
    · have := found_section_name_length_le mem (section_header mem base k)
      rw [← he] at this
      omega
  exact ⟨hr, by simp [GetSectionAddress, hr]⟩

theorem takeWhile_all (q : Nat → Bool) (l : List Nat) (h : ∀ c ∈ l, q c = true) :
    l.takeWhile q = l := by
  induction l with
  | nil => rfl
  | cons x xs ih =>
    rw [List.takeWhile_cons, if_pos (h x (List.mem_cons_self _ _)),
      ih (fun c hc => h c (List.mem_cons_of_mem _ hc))]

theorem takeWhile_append_stop (q : Nat → Bool) (l r : List Nat) (x : Nat)
    (h : ∀ c ∈ l, q c = true) (hx : q x = false) :
    (l ++ x :: r).takeWhile q = l := by
  induction l with
  | nil => simp [List.takeWhile_cons, hx]
  | cons y ys ih =>
    rw [List.cons_append, List.takeWhile_cons, if_pos (h y (List.mem_cons_self _ _)),
      ih (fun c hc => h c (List.mem_cons_of_mem _ hc))]

/-- C10: when section `i` has a `Name` field of eight non-NUL bytes
`p ++ t` and section `j` has the proper prefix `p` followed by NUL padding,
whatever their order in the table, `GetSectionRva` on `p ++ t` returns the
data of section `i` and `GetSectionRva` on `p` returns the data of section
`j`.  No other section before them bears either name, and section headers
lie at non-null addresses. -/
theorem GetSectionRva_full_and_short_names (mem : Mem) (base i j : Nat) (p t : List Nat)
    (hnn : ∀ k, k < NumberOfSections mem base → section_header mem base k ≠ 0)
    (hi : i < NumberOfSections mem base) (hj : j < NumberOfSections mem base)
    (hfull : Name_field mem (section_header mem base i) = p ++ t)
    (hnz : ∀ c ∈ p ++ t, c ≠ 0) (ht : t ≠ [])
    (hshort : Name_field mem (section_header mem base j) =
      p ++ List.replicate (8 - p.length) 0)
    (hoi : ∀ k, k < i → k ≠ j → truncated_name mem (section_header mem base k) ≠ p ++ t)
    (hoj : ∀ k, k < j → k ≠ i → truncated_name mem (section_header mem base k) ≠ p) :
    GetSectionRva mem base (p ++ t) =
      (read32 mem (section_header mem base i + 12), read32 mem (section_header mem base i + 8)) ∧
    GetSectionRva mem base p =
      (read32 mem (section_header mem base j + 12), read32 mem (section_header mem base j + 8)) := by
  have hlen : (p ++ t).length = 8 := by
    rw [← hfull]; simp [Name_field]
  have htl : 0 < t.length := List.length_pos.2 ht
  have hpl : p.length < 8 := by
    rw [List.length_append] at hlen; omega
  have hti : truncated_name mem (section_header mem base i) = p ++ t := by
    unfold truncated_name
    rw [hfull]
    exact takeWhile_all _ _ (fun c hc => by simpa using hnz c hc)
  have htj : truncated_name mem (section_header mem base j) = p := by
    unfold truncated_name
    rw [hshort]
    obtain ⟨m, hm⟩ : ∃ m, 8 - p.length = m + 1 := ⟨8 - p.length - 1, by omega⟩
    rw [hm, List.replicate_succ]
    exact takeWhile_append_stop _ _ _ _
      (fun c hc => by simpa using hnz c (List.mem_append_left _ hc)) (by simp)
  have hne : p ≠ p ++ t := by
    intro he
    have := congrArg List.length he
    rw [List.length_append] at this
    omega
  constructor
  · rw [GetSectionRva_find_truncated mem base _ hnn,
      find_range_first _ _ i hi (by simp [hti])]
    intro k hk
    rw [decide_eq_false_iff_not]
    by_cases hkj : k = j
    · subst hkj; rw [htj]; exact fun he => hne he.symm
    · exact fun he => hoi k hk hkj he.symm
  · rw [GetSectionRva_find_truncated mem base _ hnn,
      find_range_first _ _ j hj (by simp [htj])]
    intro k hk
    rw [decide_eq_false_iff_not]
    by_cases hki : k = i
    · subst hki; rw [hti]; exact hne
    · exact fun he => hoj k hk hki he.symm

theorem GetSection_absent_witness :
    (GetSectionRva mem_sections 0x400000 [46, 114, 115, 114, 99] = (0, 0) ∧
      GetSectionAddress mem_sections 0x400000 [46, 114, 115, 114, 99] = (0, 0)) ∧
    (GetSectionRva mem_sections 0x400000 [46, 116, 101, 120, 116, 65, 66, 67, 68] = (0, 0) ∧
      GetSectionAddress mem_sections 0x400000 [46, 116, 101, 120, 116, 65, 66, 67, 68] =
        (0, 0)) :=
  ⟨GetSection_absent mem_sections 0x400000 [46, 114, 115, 114, 99] (Or.inl (by decide)),
   GetSection_absent mem_sections 0x400000 [46, 116, 101, 120, 116, 65, 66, 67, 68]
     (Or.inr (by decide))⟩

theorem GetSectionRva_full_and_short_names_witness :
    GetSectionRva mem_sections 0x400000 ([46, 116, 101, 120, 116] ++ [65, 66, 67]) =
      (0x1000, 0x500) ∧
    GetSectionRva mem_sections 0x400000 [46, 116, 101, 120, 116] = (0x2000, 0x300) := by
  have h := GetSectionRva_full_and_short_names mem_sections 0x400000 0 1
    [46, 116, 101, 120, 116] [65, 66, 67] (by decide) (by decide) (by decide) (by decide)
    (by decide) (by decide) (by decide) (by decide) (by decide)
  exact ⟨h.1.trans (by decide), h.2.trans (by decide)⟩

/-! ## Export resolver: proofs -/

theorem read8_lt (mem : Mem) (a : Nat) : read8 mem a < 256 :=
  Nat.mod_lt _ (by norm_num)

theorem read16_lt (mem : Mem) (a : Nat) : read16 mem a < 65536 := by
  have h1 := read8_lt mem a
  have h2 := read8_lt mem (a + 1)
  unfold read16
  omega

theorem GetExportRva_loop_by_name_match (fwd : List Nat → Option Nat) (mem : Mem)
    (base : Nat) (name : List Nat) (ordinal i : Nat)
    (hN : i < NumberOfNames mem base)
    (hi : found_export_name mem base i = some name) (n s : Nat)
    (hs : s ≤ i) (hlt : i < s + n)
    (hk : ∀ k, s ≤ k → k < i → ∃ str, found_export_name mem base k = some str ∧ str ≠ name) :
    GetExportRva_loop fwd mem base name false ordinal n s = resolve_slot fwd mem base i := by
  induction n generalizing s with
  | zero => omega
  | succ n ih =>
    rw [GetExportRva_loop]
    have hns : ¬ NumberOfNames mem base ≤ s := by omega
    by_cases hsi : s = i
    · subst hsi
      simp [hns, hi]
    · obtain ⟨str, h1, h2⟩ := hk s (le_refl _) (by omega)
      simp only [Bool.false_eq_true, if_false, hns, h1, ne_eq, Ne.symm h2, not_false_eq_true,
        if_true]
      exact ih (s + 1) (by omega) (by omega) (fun k hk1 hk2 => hk k (by omega) hk2)

theorem GetExportRva_loop_by_name_none (fwd : List Nat → Option Nat) (mem : Mem)
    (base : Nat) (name : List Nat) (ordinal : Nat) (n s : Nat)
    (hk : ∀ k, s ≤ k → k < s + n → k < NumberOfNames mem base →
      ∃ str, found_export_name mem base k = some str ∧ str ≠ name) :
    GetExportRva_loop fwd mem base name false ordinal n s = some 0 := by
  induction n generalizing s with
  | zero => rfl
  | succ n ih =>
    rw [GetExportRva_loop]
    by_cases hns : NumberOfNames mem base ≤ s
    · simp [hns]
    · obtain ⟨str, h1, h2⟩ := hk s (le_refl _) (by omega) (by omega)
      simp only [Bool.false_eq_true, if_false, hns, h1, ne_eq, Ne.symm h2, not_false_eq_true,
        if_true]
      exact ih (s + 1) (fun k hk1 hk2 hk3 => hk k (by omega) (by omega) hk3)

theorem GetExportRva_loop_by_ordinal_match (fwd : List Nat → Option Nat) (mem : Mem)
    (base : Nat) (name : List Nat) (ordinal i : Nat)
    (hi : ordinal = found_ordinal mem base i) (n s : Nat)
    (hs : s ≤ i) (hlt : i < s + n)
    (hk : ∀ k, s ≤ k → k < i → ordinal ≠ found_ordinal mem base k) :
    GetExportRva_loop fwd mem base name true ordinal n s = resolve_slot fwd mem base i := by
  induction n generalizing s with
  | zero => omega
  | succ n ih =>
    rw [GetExportRva_loop]
    by_cases hsi : s = i
    · subst hsi
      simp [← hi]
    · have h1 := hk s (le_refl _) (by omega)
      simp only [if_true, ne_eq, h1, not_false_eq_true]
      exact ih (s + 1) (by omega) (by omega) (fun k hk1 hk2 => hk k (by omega) hk2)

theorem GetExportRva_loop_by_ordinal_none (fwd : List Nat → Option Nat) (mem : Mem)
    (base : Nat) (name : List Nat) (ordinal : Nat) (n s : Nat)
    (hk : ∀ k, s ≤ k → k < s + n → ordinal ≠ found_ordinal mem base k) :
    GetExportRva_loop fwd mem base name true ordinal n s = some 0 := by
  induction n generalizing s with
  | zero => rfl
  | succ n ih =>
    rw [GetExportRva_loop]
    have h1 := hk s (le_refl _) (by omega)
    simp only [if_true, ne_eq, h1, not_false_eq_true]
    exact ih (s + 1) (fun k hk1 hk2 => hk k (by omega) (by omega))

theorem GetExportRva_succ (mem : Mem) (mods : List LDR_DATA_TABLE_ENTRY)
    (fuel base : Nat) (name : List Nat) (by_ordinal : Bool) (ordinal : Nat) :
    GetExportRva mem mods (fuel + 1) base name by_ordinal ordinal =
      GetExportRva_loop (FindForwardedExportRva mem mods fuel) mem base name by_ordinal ordinal
        (NumberOfFunctions mem base) 0 := by
  rw [GetExportRva]
  rfl

/-- Slots with the same computed ordinal hold the same function index. -/
theorem entry_index_eq_of_found_ordinal_eq (mem : Mem) (base i j : Nat)
    (h : found_ordinal mem base j = found_ordinal mem base i) :
    entry_index mem base j = entry_index mem base i := by
  unfold found_ordinal u16 at h
  have h1 : entry_index mem base i < 65536 := read16_lt _ _
  have h2 : entry_index mem base j < 65536 := read16_lt _ _
  omega

theorem resolve_slot_congr (fwd : List Nat → Option Nat) (mem : Mem) (base i j : Nat)
    (h : entry_index mem base j = entry_index mem base i) :
    resolve_slot fwd mem base j = resolve_slot fwd mem base i := by
  unfold resolve_slot function_rva_at
  rw [h]

theorem name_differs_exists {mem : Mem} {base : Nat} {name : List Nat} {k : Nat}
    (h : name_differs mem base name k) :
    ∃ str, found_export_name mem base k = some str ∧ str ≠ name := by
  obtain ⟨h1, h2⟩ := h
  cases hf : found_export_name mem base k with
  | none => exact absurd hf h1
  | some str =>
    refine ⟨str, rfl, fun he => h2 ?_⟩
    rw [hf, he]

/-- Once the loop has matched at slot `i`, the result is what lines 114-124
make of that slot. -/
theorem GetExportRva_matched (mem : Mem) (mods : List LDR_DATA_TABLE_ENTRY)
    (fuel base : Nat) (name : List Nat) (by_ordinal : Bool) (ordinal i : Nat)
    (h : matched_slot mem base name by_ordinal ordinal i) :
    GetExportRva mem mods (fuel + 1) base name by_ordinal ordinal =
      resolve_slot (FindForwardedExportRva mem mods fuel) mem base i := by
  rw [GetExportRva_succ]
  obtain ⟨hF, h⟩ := h
  cases by_ordinal with
  | true =>
    simp only [if_true] at h
    exact GetExportRva_loop_by_ordinal_match _ mem base name ordinal i h.1 _ 0
      (Nat.zero_le _) (by omega) (fun k _ hk => h.2 k hk)
  | false =>
    simp only [Bool.false_eq_true, if_false] at h
    exact GetExportRva_loop_by_name_match _ mem base name ordinal i h.1 h.2.1 _ 0
      (Nat.zero_le _) (by omega) (fun k _ hk => name_differs_exists (h.2.2 k hk))

theorem is_forward_iff (mem : Mem) (base r : Nat) :
    is_forward mem base r = true ↔ in_export_directory mem base r := by
  simp [is_forward, in_export_directory]

theorem find_char_append (c : Nat) (M E : List Nat) (h : c ∉ M) :
    find_char c (M ++ c :: E) = some M.length := by
  induction M with
  | nil => simp [find_char]
  | cons x xs ih =>
    have hx : x ≠ c := fun he => h (by simp [he])
    have hxs : c ∉ xs := fun hm => h (List.mem_cons_of_mem _ hm)
    simp [find_char, hx, ih hxs]

/-- The split of a forward string at its first period. -/
theorem FindForwardedExportRva_body_split (callee : Nat → List Nat → Option Nat) (mem : Mem)
    (mods : List LDR_DATA_TABLE_ENTRY) (M E : List Nat) (hdot : 46 ∉ M) (hnul : 0 ∉ M) :
    FindForwardedExportRva_body callee mem mods (M ++ 46 :: E) =
      if (GetModuleAddress mem mods (M ++ [46, 100, 108, 108])).1 = 0 then some 0
      else callee (GetModuleAddress mem mods (M ++ [46, 100, 108, 108])).1 E := by
  unfold FindForwardedExportRva_body
  rw [find_char_append 46 M E hdot]
  have htake : (M ++ 46 :: E).take (M.length + 1) = M ++ [46] := by
    rw [List.take_append_eq_append_take]
    simp
  have hdrop : (M ++ 46 :: E).drop (M.length + 1) = E := by
    rw [List.drop_append_eq_append_drop]
    simp
  have hall : ∀ c ∈ M ++ [46], (fun c => c != 0) c = true := by
    intro c hc
    rcases List.mem_append.1 hc with h | h
    · have : c ≠ 0 := fun he => hnul (he ▸ h)
      simpa using this
    · simp at h; simp [h]
  have hconv : mbstowcs_s (M ++ 46 :: E) (M.length + 1) = M ++ [46] := by
    unfold mbstowcs_s view_of_buffer
    rw [htake]
    exact takeWhile_all _ _ hall
  have hview : view_of_buffer (M ++ [46] ++ [100, 108, 108] ++ [0]) =
      M ++ [46, 100, 108, 108] := by
    unfold view_of_buffer
    have : M ++ [46] ++ [100, 108, 108] ++ [0] = (M ++ [46, 100, 108, 108]) ++ 0 :: [] := by
      simp
    rw [this]
    apply takeWhile_append_stop
    · intro c hc
      rcases List.mem_append.1 hc with h | h
      · have : c ≠ 0 := fun he => hnul (he ▸ h)
        simpa using this
      · have hlit : ∀ d ∈ [46, 100, 108, 108], (d != 0) = true := by decide
        exact hlit c h
    · rfl
  simp only [hconv, hview, hdrop]

/-! ### Independence of the nesting allowance -/

theorem FindForwardedExportRva_body_mono (c c' : Nat → List Nat → Option Nat)
    (h : ∀ a s r, c a s = some r → c' a s = some r) (mem : Mem)
    (mods : List LDR_DATA_TABLE_ENTRY) (s : List Nat) (r : Nat)
    (hr : FindForwardedExportRva_body c mem mods s = some r) :
    FindForwardedExportRva_body c' mem mods s = some r := by
  unfold FindForwardedExportRva_body at hr ⊢
  split at hr
  · simpa using hr
  · simp only at hr ⊢
    split at hr
    · rename_i h0; rw [if_pos h0]; exact hr
    · rename_i h0; rw [if_neg h0]; exact h _ _ _ hr

theorem resolve_slot_mono (fwd fwd' : List Nat → Option Nat)
    (h : ∀ s r, fwd s = some r → fwd' s = some r) (mem : Mem) (base i r : Nat)
    (hr : resolve_slot fwd mem base i = some r) :
    resolve_slot fwd' mem base i = some r := by
  unfold resolve_slot at hr ⊢
  simp only at hr ⊢
  split at hr
  · rename_i h0
    rw [if_pos h0]
    cases hc : c_str mem (u64 (base + function_rva_at mem base i)) with
    | none => rw [hc] at hr; simp at hr
    | some s => rw [hc] at hr; exact h s r hr
  · rename_i h0
    rw [if_neg h0]; exact hr

theorem GetExportRva_loop_mono (fwd fwd' : List Nat → Option Nat)
    (h : ∀ s r, fwd s = some r → fwd' s = some r) (mem : Mem) (base : Nat)
    (name : List Nat) (by_ordinal : Bool) (ordinal r n s : Nat)
    (hr : GetExportRva_loop fwd mem base name by_ordinal ordinal n s = some r) :
    GetExportRva_loop fwd' mem base name by_ordinal ordinal n s = some r := by
  induction n generalizing s with
  | zero => simpa [GetExportRva_loop] using hr
  | succ n ih =>
    rw [GetExportRva_loop] at hr ⊢
    split at hr
    · rename_i hb
      rw [if_pos hb]
      split at hr
      · rename_i h0; rw [if_pos h0]; exact ih _ hr
      · rename_i h0; rw [if_neg h0]; exact resolve_slot_mono fwd fwd' h mem base s r hr
    · rename_i hb
      rw [if_neg hb]
      split at hr
      · rename_i h0; rw [if_pos h0]; exact hr
      · rename_i h0
        rw [if_neg h0]
        cases hf : found_export_name mem base s with
        | none => rw [hf] at hr; simp at hr
        | some found =>
          rw [hf] at hr
          simp only at hr ⊢
          split at hr
          · rename_i h1; rw [if_pos h1]; exact ih _ hr
          · rename_i h1; rw [if_neg h1]; exact resolve_slot_mono fwd fwd' h mem base s r hr

theorem GetExportRva_mono (mem : Mem) (mods : List LDR_DATA_TABLE_ENTRY) (fuel : Nat) :
    ∀ (fuel' base : Nat) (name : List Nat) (by_ordinal : Bool) (ordinal r : Nat),
      fuel ≤ fuel' →
      GetExportRva mem mods fuel base name by_ordinal ordinal = some r →
      GetExportRva mem mods fuel' base name by_ordinal ordinal = some r := by
  induction fuel with
  | zero => intro fuel' base name b o r _ hr; simp [GetExportRva] at hr
  | succ fuel ih =>
    intro fuel' base name b o r hle hr
    obtain ⟨f', rfl⟩ : ∃ f', fuel' = f' + 1 := ⟨fuel' - 1, by omega⟩
    rw [GetExportRva_succ] at hr ⊢
    refine GetExportRva_loop_mono _ _ ?_ mem base name b o r _ 0 hr
    intro s r' hs
    exact FindForwardedExportRva_body_mono _ _
      (fun a s2 r2 h2 => ih f' a s2 false 0 r2 (by omega) h2) mem mods s r' hs

/-! ### The two selectors -/

/-- C2: when the by-name lookup of `name` matches at slot `i`,
`GetExportAddress` by name returns the same absolute address as
`GetExportAddress` by ordinal with the ordinal of that slot, the 16-bit
value `Base + entry_index_array[i]`. -/
theorem GetExportAddress_name_ordinal_agree (mem : Mem) (mods : List LDR_DATA_TABLE_ENTRY)
    (fuel base : Nat) (name other_name : List Nat) (ordinal0 i : Nat)
    (h : matched_slot mem base name false ordinal0 i) :
    GetExportAddress mem mods fuel base name false ordinal0 =
      GetExportAddress mem mods fuel base other_name true (found_ordinal mem base i) := by
  cases fuel with
  | zero => simp [GetExportAddress, GetExportRva]
  | succ fuel =>
    have hex : ∃ k, found_ordinal mem base k = found_ordinal mem base i := ⟨i, rfl⟩
    have hj : found_ordinal mem base (Nat.find hex) = found_ordinal mem base i :=
      Nat.find_spec hex
    have hji : Nat.find hex ≤ i := Nat.find_min' hex rfl
    have hm : matched_slot mem base other_name true (found_ordinal mem base i) (Nat.find hex) := by
      refine ⟨lt_of_le_of_lt hji h.1, ?_⟩
      simp only [if_true]
      exact ⟨hj.symm, fun k hk he => Nat.find_min hex hk he.symm⟩
    unfold GetExportAddress
    rw [GetExportRva_matched mem mods fuel base name false ordinal0 i h,
      GetExportRva_matched mem mods fuel base other_name true _ _ hm,
      resolve_slot_congr _ mem base i (Nat.find hex)
        (entry_index_eq_of_found_ordinal_eq mem base i (Nat.find hex) hj)]

theorem GetExportAddress_name_ordinal_agree_witness :
    matched_slot mem_ab 0x10000 [104] false 0 1 ∧
    found_ordinal mem_ab 0x10000 1 = 6 ∧
    GetExportAddress mem_ab mods_ab 1 0x10000 [104] false 0 =
      GetExportAddress mem_ab mods_ab 1 0x10000 [] true (found_ordinal mem_ab 0x10000 1) :=
  ⟨by decide, by decide,
    GetExportAddress_name_ordinal_agree mem_ab mods_ab 1 0x10000 [104] [] 0 1 (by decide)⟩

/-- C3: on the image `mem_ab`, where export `f` of `a.dll` (base `0x10000`)
is forwarded to export `g` of `b.dll` (base `0x20000`, RVA `0x1234`),
`GetExportAddress` on `a.dll` returns `0x10000 + 0x1234`: the RVA found in
`b.dll` added to the base of `a.dll`, not the address `0x21234` of the
export. -/
theorem GetExportAddress_forward_adds_requesting_base :
    GetModuleAddress mem_ab mods_ab [98, 46, 100, 108, 108] = (0x20000, 0x4000) ∧
    GetExportRva mem_ab mods_ab 1 0x20000 [103] false 0 = some 0x1234 ∧
    GetExportAddress mem_ab mods_ab 1 0x20000 [103] false 0 = some 0x21234 ∧
    GetExportRva mem_ab mods_ab 2 0x10000 [102] false 0 = some 0x1234 ∧
    GetExportAddress mem_ab mods_ab 2 0x10000 [102] false 0 = some 0x11234 := by
  decide

/-! ### Forward chasing -/

theorem GetExportRva_forward_hop (mem : Mem) (mods : List LDR_DATA_TABLE_ENTRY)
    (A B i fuel : Nat) (name M target : List Nat)
    (h : forwards_to mem mods A name i M target B) :
    GetExportRva mem mods (fuel + 1) A name false 0 =
      GetExportRva mem mods fuel B target false 0 := by
  obtain ⟨hm, hin, hstr, hdot, hnul, hB, hB0⟩ := h
  rw [GetExportRva_matched mem mods fuel A name false 0 i hm]
  unfold resolve_slot
  simp only
  rw [if_pos ((is_forward_iff _ _ _).2 hin), hstr]
  show FindForwardedExportRva_body (fun a s => GetExportRva mem mods fuel a s false 0)
    mem mods (M ++ 46 :: target) = _
  rw [FindForwardedExportRva_body_split _ mem mods M target hdot hnul, hB, if_neg hB0]

theorem GetExportRva_cycle_none (mem : Mem) (mods : List LDR_DATA_TABLE_ENTRY)
    (A B i j : Nat) (f g MA MB : List Nat)
    (hab : forwards_to mem mods A f i MB g B) (hba : forwards_to mem mods B g j MA f A)
    (fuel : Nat) :
    GetExportRva mem mods fuel A f false 0 = none ∧
    GetExportRva mem mods fuel B g false 0 = none := by
  induction fuel with
  | zero => exact ⟨rfl, rfl⟩
  | succ fuel ih =>
    rw [GetExportRva_forward_hop mem mods A B i fuel f MB g hab,
      GetExportRva_forward_hop mem mods B A j fuel g MA f hba]
    exact ⟨ih.2, ih.1⟩

/-- C4, as the code has it: the recursion between `GetExportRva` and
`FindForwardedExportRva` carries no depth bound.  A call that returns
within some nesting of activations returns the same value under every
larger allowance, so no cut-off ever turns a result into 0; and when
export `f` of module `A` is forwarded to export `g` of module `B` and that
export is forwarded back to `f` of `A`, the call never returns, whatever
nesting is allowed. -/
theorem GetExportRva_unbounded_recursion (mem : Mem) (mods : List LDR_DATA_TABLE_ENTRY) :
    (∀ (fuel fuel' base : Nat) (name : List Nat) (by_ordinal : Bool) (ordinal r : Nat),
      GetExportRva mem mods fuel base name by_ordinal ordinal = some r → fuel ≤ fuel' →
      GetExportRva mem mods fuel' base name by_ordinal ordinal = some r) ∧
    (∀ (A B i j : Nat) (f g MA MB : List Nat),
      forwards_to mem mods A f i MB g B → forwards_to mem mods B g j MA f A →
      ∀ fuel, GetExportRva mem mods fuel A f false 0 = none) :=
  ⟨fun fuel fuel' base name b o r hr hle => GetExportRva_mono mem mods fuel fuel' base name b o r hle hr,
   fun A B i j f g MA MB hab hba fuel =>
    (GetExportRva_cycle_none mem mods A B i j f g MA MB hab hba fuel).1⟩

theorem GetExportRva_unbounded_recursion_witness :
    (GetExportRva mem_ab mods_ab 2 0x10000 [102] false 0 = some 0x1234 ∧ 2 ≤ 9 ∧
      GetExportRva mem_ab mods_ab 9 0x10000 [102] false 0 = some 0x1234) ∧
    (forwards_to mem_cycle mods_cycle 0x10000 [102] 0 [98] [103] 0x20000 ∧
      forwards_to mem_cycle mods_cycle 0x20000 [103] 0 [97] [102] 0x10000 ∧
      GetExportRva mem_cycle mods_cycle 50 0x10000 [102] false 0 = none) :=
  ⟨⟨by decide, by decide,
    (GetExportRva_unbounded_recursion mem_ab mods_ab).1 2 9 0x10000 [102] false 0 0x1234
      (by decide) (by decide)⟩,
   by decide, by decide,
    (GetExportRva_unbounded_recursion mem_cycle mods_cycle).2 0x10000 0x20000 0 0
      [102] [103] [97] [98] (by decide) (by decide) 50⟩

/-- C4, as stated, fails: on the cyclic image `mem_cycle` (export `f` of
`a.dll` forwarded to `b.g`, export `g` of `b.dll` forwarded to `a.f`) no
allowance of nested activations lets `GetExportRva` return a result, 0 or
other. -/
theorem GetExportRva_cycle_never_returns :
    ¬ ∃ fuel r, GetExportRva mem_cycle mods_cycle fuel 0x10000 [102] false 0 = some r := by
  rintro ⟨fuel, r, h⟩
  have hn := (GetExportRva_cycle_none mem_cycle mods_cycle 0x10000 0x20000 0 0
    [102] [103] [97] [98] (by decide) (by decide) fuel).1
  rw [hn] at h
  exact Option.noConfusion h

/-! ### Lookup by name -/

/-- C5, as the code has it: the by-name scan of `GetExportRva` covers the
indices below both `NumberOfNames` and `NumberOfFunctions`.  If `i` is the
least such index whose NUL-terminated name equals the requested name and
`function_array[entry_index_array[i]]` is not a forward, the result is
exactly that function RVA; if no such index has the name, the result is 0. -/
theorem GetExportRva_by_name_scan (mem : Mem) (mods : List LDR_DATA_TABLE_ENTRY)
    (fuel base : Nat) (name : List Nat) (ordinal : Nat) :
    (∀ i, i < NumberOfNames mem base → i < NumberOfFunctions mem base →
      found_export_name mem base i = some name →
      (∀ k, k < i → name_differs mem base name k) →
      ¬ in_export_directory mem base (function_rva_at mem base i) →
      GetExportRva mem mods (fuel + 1) base name false ordinal =
        some (read32 mem (function_array mem base + 4 * entry_index mem base i))) ∧
    ((∀ k, k < NumberOfNames mem base → k < NumberOfFunctions mem base →
        name_differs mem base name k) →
      GetExportRva mem mods (fuel + 1) base name false ordinal = some 0) := by
  constructor
  · intro i hN hF hi hk hfw
    have hm : matched_slot mem base name false ordinal i := by
      refine ⟨hF, ?_⟩
      simp only [Bool.false_eq_true, if_false]
      exact ⟨hN, hi, hk⟩
    rw [GetExportRva_matched mem mods fuel base name false ordinal i hm]
    unfold resolve_slot
    simp only
    rw [if_neg (fun h => hfw ((is_forward_iff _ _ _).1 h))]
    rfl
  · intro hk
    rw [GetExportRva_succ]
    exact GetExportRva_loop_by_name_none _ mem base name ordinal _ 0
      (fun k _ h2 h3 => name_differs_exists (hk k h3 (by omega)))

theorem GetExportRva_by_name_scan_witness :
    GetExportRva mem_ab mods_ab 1 0x10000 [104] false 0 = some 0x2000 ∧
    GetExportRva mem_ab mods_ab 1 0x10000 [122, 122] false 0 = some 0 :=
  ⟨((GetExportRva_by_name_scan mem_ab mods_ab 0 0x10000 [104] 0).1 1
      (by decide) (by decide) (by decide) (by decide) (by decide)).trans (by decide),
   (GetExportRva_by_name_scan mem_ab mods_ab 0 0x10000 [122, 122] 0).2 (by decide)⟩

/-- C5, as stated, fails: in `mem_two_names` slot 1 is the least index
below `NumberOfNames = 2` whose name is `y`, and its function RVA `0x2000`
is not a forward, yet `GetExportRva` by name returns 0, because the scan
stops at `NumberOfFunctions = 1`. -/
theorem GetExportRva_by_name_misses_slot_beyond_functions :
    (1 < NumberOfNames mem_two_names 0x10000 ∧
      found_export_name mem_two_names 0x10000 1 = some [121] ∧
      (∀ k, k < 1 → name_differs mem_two_names 0x10000 [121] k) ∧
      ¬ in_export_directory mem_two_names 0x10000 (function_rva_at mem_two_names 0x10000 1)) ∧
    read32 mem_two_names
      (function_array mem_two_names 0x10000 + 4 * entry_index mem_two_names 0x10000 1) = 0x2000 ∧
    NumberOfFunctions mem_two_names 0x10000 = 1 ∧
    GetExportRva mem_two_names [] 1 0x10000 [121] false 0 = some 0 := by
  decide

/-! ### The forwarding check -/

/-- C6: for the slot `i` at which `GetExportRva` matches, in either mode,
with function RVA `r = function_array[entry_index_array[i]]`: when
`module_address + r` lies in the half-open range of the export directory
the result is `FindForwardedExportRva` applied to the NUL-terminated string
at that address, and otherwise the result is `r` itself. -/
theorem GetExportRva_forwarding_check (mem : Mem) (mods : List LDR_DATA_TABLE_ENTRY)
    (fuel base : Nat) (name : List Nat) (by_ordinal : Bool) (ordinal i : Nat)
    (h : matched_slot mem base name by_ordinal ordinal i) :
    GetExportRva mem mods (fuel + 1) base name by_ordinal ordinal =
      if export_directory mem base ≤ u64 (base + function_rva_at mem base i) ∧
          u64 (base + function_rva_at mem base i) <
            u64 (export_directory mem base + export_directory_size mem base) then
        (c_str mem (u64 (base + function_rva_at mem base i))).bind
          (FindForwardedExportRva mem mods fuel)
      else some (function_rva_at mem base i) := by
  rw [GetExportRva_matched mem mods fuel base name by_ordinal ordinal i h]
  unfold resolve_slot
  simp only
  by_cases hin : in_export_directory mem base (function_rva_at mem base i)
  · rw [if_pos ((is_forward_iff _ _ _).2 hin)]
    unfold in_export_directory at hin
    rw [if_pos hin]
  · rw [if_neg (fun h => hin ((is_forward_iff _ _ _).1 h))]
    unfold in_export_directory at hin
    rw [if_neg hin]

theorem GetExportRva_forwarding_check_witness :
    matched_slot mem_ab 0x10000 [] true 5 0 ∧
    function_rva_at mem_ab 0x10000 0 = 0x1090 ∧
    c_str mem_ab 0x11090 = some [98, 46, 103] ∧
    GetExportRva mem_ab mods_ab 2 0x10000 [] true 5 =
      FindForwardedExportRva mem_ab mods_ab 1 [98, 46, 103] :=
  ⟨by decide, by decide, by decide,
    (GetExportRva_forwarding_check mem_ab mods_ab 1 0x10000 [] true 5 0 (by decide)).trans
      (by decide)⟩

/-- C7: for a forward string `M.E` split at its first period (`M` holds no
period, and no NUL as it is text), `FindForwardedExportRva` resolves the
module named `M` followed by `.dll` through the wide `GetModuleAddress`;
when the base is 0 the result is 0, otherwise it is `GetExportRva(base, E)`
by name, `E` being everything after the first period, further periods
included. -/
theorem FindForwardedExportRva_split (mem : Mem) (mods : List LDR_DATA_TABLE_ENTRY)
    (fuel : Nat) (M E : List Nat) (hdot : 46 ∉ M) (hnul : 0 ∉ M) :
    FindForwardedExportRva mem mods fuel (M ++ 46 :: E) =
      if (GetModuleAddress mem mods (M ++ [46, 100, 108, 108])).1 = 0 then some 0
      else GetExportRva mem mods fuel
        (GetModuleAddress mem mods (M ++ [46, 100, 108, 108])).1 E false 0 := by
  unfold FindForwardedExportRva
  rw [FindForwardedExportRva_body_split _ mem mods M E hdot hnul]

theorem FindForwardedExportRva_split_witness :
    (46 ∉ [98] ∧ 0 ∉ [98]) ∧
    FindForwardedExportRva mem_ab mods_ab 1 ([98] ++ 46 :: [103]) = some 0x1234 ∧
    FindForwardedExportRva mem_ab mods_ab 1 ([98] ++ 46 :: [103, 46, 104]) = some 0 :=
  ⟨by decide,
   (FindForwardedExportRva_split mem_ab mods_ab 1 [98] [103] (by decide) (by decide)).trans
     (by decide),
   (FindForwardedExportRva_split mem_ab mods_ab 1 [98] [103, 46, 104] (by decide)
     (by decide)).trans (by decide)⟩

/-! ## Loader walker: further proofs -/

theorem GetModuleAddress_cons (mem : Mem) (e : LDR_DATA_TABLE_ENTRY)
    (rest : List LDR_DATA_TABLE_ENTRY) (name : List Nat) :
    GetModuleAddress mem (e :: rest) name =
      if qualifies mem name e = true then (e.DllBase, read32 mem (nt_header mem e.DllBase + 80))
      else GetModuleAddress mem rest name := by
  rw [GetModuleAddress]
  by_cases hn : name_matches name (view_of_buffer e.BaseDllName)
  · rw [if_pos ((ranges_equal_iff _ _).2 hn)]
    by_cases h1 : read16 mem e.DllBase = IMAGE_DOS_SIGNATURE
    · by_cases h2 : read32 mem (nt_header mem e.DllBase) = IMAGE_NT_SIGNATURE
      · by_cases h3 : read16 mem (nt_header mem e.DllBase + 24) = IMAGE_NT_OPTIONAL_HDR64_MAGIC
        · simp [qualifies, headers_pass, hn, h1, h2, h3]
        · simp [qualifies, headers_pass, h1, h2, h3]
      · simp [qualifies, headers_pass, h1, h2]
    · simp [qualifies, headers_pass, h1]
  · have hr : ¬ ranges_equal (fun a b => towlower a == towlower b) name
        (view_of_buffer e.BaseDllName) = true := fun h => hn ((ranges_equal_iff _ _).1 h)
    rw [if_neg hr]
    simp [qualifies, hn]

theorem GetModuleAddress_find (mem : Mem) (mods : List LDR_DATA_TABLE_ENTRY)
    (name : List Nat) :
    GetModuleAddress mem mods name =
      match mods.find? (qualifies mem name) with
      | some e => (e.DllBase, read32 mem (nt_header mem e.DllBase + 80))
      | none => (0, 0) := by
  induction mods with
  | nil => simp [GetModuleAddress]
  | cons e rest ih =>
    rw [GetModuleAddress_cons]
    by_cases hq : qualifies mem name e = true
    · simp [List.find?, hq]
    · simp only [Bool.not_eq_true] at hq
      simp [List.find?, hq, ih]

theorem GetModuleAddress_none (mem : Mem) (mods : List LDR_DATA_TABLE_ENTRY)
    (name : List Nat) (h : ∀ e ∈ mods, qualifies mem name e = false) :
    GetModuleAddress mem mods name = (0, 0) := by
  rw [GetModuleAddress_find, List.find?_eq_none.2 (fun e he => by simp [h e he])]

theorem name_matches_iff_map (a b : List Nat) :
    name_matches a b ↔ a.map towlower = b.map towlower := by
  induction a generalizing b with
  | nil =>
    cases b with
    | nil => simp [name_matches]
    | cons y ys => simp [name_matches]
  | cons x xs ih =>
    cases b with
    | nil => simp [name_matches]
    | cons y ys => rw [name_matches_cons, ih]; simp

theorem qualifies_congr (mem : Mem) (a b : List Nat) (h : name_matches a b)
    (e : LDR_DATA_TABLE_ENTRY) : qualifies mem a e = qualifies mem b e := by
  have hab := (name_matches_iff_map a b).1 h
  have hiff : name_matches a (view_of_buffer e.BaseDllName) ↔
      name_matches b (view_of_buffer e.BaseDllName) := by
    rw [name_matches_iff_map, name_matches_iff_map, hab]
  unfold qualifies
  simp only [hiff]

/-- C11: two wide names of equal length that are `towlower`-equal
character by character, such as `KERNEL32.dll` and `kernel32.DLL`, get the
identical `(base address, size)` pair from `GetModuleAddress`, on every
module list. -/
theorem GetModuleAddress_case_insensitive (mem : Mem) (mods : List LDR_DATA_TABLE_ENTRY)
    (a b : List Nat) (h : name_matches a b) :
    GetModuleAddress mem mods a = GetModuleAddress mem mods b := by
  induction mods with
  | nil => simp [GetModuleAddress]
  | cons e rest ih =>
    rw [GetModuleAddress_cons, GetModuleAddress_cons, qualifies_congr mem a b h e, ih]

theorem GetModuleAddress_case_insensitive_witness :
    name_matches [75, 69, 82, 78, 69, 76, 51, 50, 46, 100, 108, 108]
      [107, 101, 114, 110, 101, 108, 51, 50, 46, 68, 76, 76] ∧
    GetModuleAddress mem_ab mods_kernel32 [75, 69, 82, 78, 69, 76, 51, 50, 46, 100, 108, 108] =
      (0x10000, 0x3000) ∧
    GetModuleAddress mem_ab mods_kernel32 [75, 69, 82, 78, 69, 76, 51, 50, 46, 100, 108, 108] =
      GetModuleAddress mem_ab mods_kernel32
        [107, 101, 114, 110, 101, 108, 51, 50, 46, 68, 76, 76] :=
  ⟨by decide, by decide,
   GetModuleAddress_case_insensitive mem_ab mods_kernel32
     [75, 69, 82, 78, 69, 76, 51, 50, 46, 100, 108, 108]
     [107, 101, 114, 110, 101, 108, 51, 50, 46, 68, 76, 76] (by decide)⟩

/-- C12: when `GetModuleAddress` returns `(base, size)` with `base`
nonzero, `GetModuleSize(base)` is that `size`. -/
theorem GetModuleSize_eq_resolved_size (mem : Mem) (mods : List LDR_DATA_TABLE_ENTRY)
    (name : List Nat) (h : (GetModuleAddress mem mods name).1 ≠ 0) :
    GetModuleSize mem (GetModuleAddress mem mods name).1 =
      (GetModuleAddress mem mods name).2 := by
  induction mods with
  | nil => simp [GetModuleAddress] at h
  | cons e rest ih =>
    rw [GetModuleAddress_cons] at h ⊢
    by_cases hq : qualifies mem name e = true
    · rw [if_pos hq]
      rfl
    · rw [if_neg hq] at h ⊢
      exact ih h

theorem GetModuleSize_eq_resolved_size_witness :
    (GetModuleAddress mem_ab mods_ab [98, 46, 100, 108, 108]).1 ≠ 0 ∧
    GetModuleAddress mem_ab mods_ab [98, 46, 100, 108, 108] = (0x20000, 0x4000) ∧
    GetModuleSize mem_ab (GetModuleAddress mem_ab mods_ab [98, 46, 100, 108, 108]).1 =
      (GetModuleAddress mem_ab mods_ab [98, 46, 100, 108, 108]).2 :=
  ⟨by decide, by decide,
   GetModuleSize_eq_resolved_size mem_ab mods_ab [98, 46, 100, 108, 108] (by decide)⟩

theorem name_matches_length {a b : List Nat} (h : name_matches a b) : a.length = b.length :=
  h.1

theorem proper_part_length {name full : List Nat} (h : proper_part name full) :
    name.length < full.length := by
  obtain ⟨s, t, rfl, hst⟩ := h
  have : 0 < s.length ∨ 0 < t.length := by
    rcases hst with h | h
    · exact Or.inl (List.length_pos.2 h)
    · exact Or.inr (List.length_pos.2 h)
  simp only [List.length_append]
  omega

/-- C17: a requested name that is longer than a loaded module's
`BaseDllName`, or only a proper part of it (a proper prefix, suffix or
substring), fails the name comparison with that module; when this holds
for every loaded module, in particular when the requested name is longer
than all of their names, `GetModuleAddress` returns `(0, 0)`. -/
theorem GetModuleAddress_no_partial_match (mem : Mem) (mods : List LDR_DATA_TABLE_ENTRY)
    (name : List Nat) :
    (∀ e : LDR_DATA_TABLE_ENTRY,
      ((view_of_buffer e.BaseDllName).length < name.length ∨
        proper_part name (view_of_buffer e.BaseDllName)) →
      ranges_equal (fun a b => towlower a == towlower b) name
        (view_of_buffer e.BaseDllName) = false) ∧
    ((∀ e ∈ mods, (view_of_buffer e.BaseDllName).length < name.length ∨
        proper_part name (view_of_buffer e.BaseDllName)) →
      GetModuleAddress mem mods name = (0, 0)) := by
  have hne : ∀ e : LDR_DATA_TABLE_ENTRY,
      ((view_of_buffer e.BaseDllName).length < name.length ∨
        proper_part name (view_of_buffer e.BaseDllName)) →
      ¬ name_matches name (view_of_buffer e.BaseDllName) := by
    intro e h hm
    have hl := name_matches_length hm
    rcases h with h1 | h1
    · omega
    · have := proper_part_length h1
      omega
  constructor
  · intro e h
    rw [← Bool.not_eq_true, ranges_equal_iff]
    exact hne e h
  · intro h
    apply GetModuleAddress_none
    intro e he
    unfold qualifies
    rw [decide_eq_false_iff_not]
    exact fun hq => hne e (h e he) hq.1

theorem GetModuleAddress_no_partial_match_witness :
    GetModuleAddress mem_ab mods_kernel32
      [107, 101, 114, 110, 101, 108, 51, 50, 46, 100, 108, 108, 120] = (0, 0) ∧
    GetModuleAddress mem_ab mods_kernel32 [75, 101, 114, 110, 101, 108] = (0, 0) ∧
    GetModuleAddress mem_ab mods_kernel32 [51, 50, 46, 100, 108, 108] = (0, 0) :=
  ⟨(GetModuleAddress_no_partial_match mem_ab mods_kernel32
      [107, 101, 114, 110, 101, 108, 51, 50, 46, 100, 108, 108, 120]).2
      (fun e he => by
        rw [List.mem_singleton.1 he]
        exact Or.inl (by decide)),
   (GetModuleAddress_no_partial_match mem_ab mods_kernel32 [75, 101, 114, 110, 101, 108]).2
      (fun e he => by
        rw [List.mem_singleton.1 he]
        exact Or.inr ⟨[], [51, 50, 46, 100, 108, 108], by decide, Or.inr (by decide)⟩),
   (GetModuleAddress_no_partial_match mem_ab mods_kernel32 [51, 50, 46, 100, 108, 108]).2
      (fun e he => by
        rw [List.mem_singleton.1 he]
        exact Or.inr ⟨[75, 101, 114, 110, 101, 108], [], by decide, Or.inl (by decide)⟩)⟩

/-! ## Failed forwards -/

theorem find_char_none (c : Nat) (s : List Nat) (h : c ∉ s) : find_char c s = none := by
  induction s with
  | nil => rfl
  | cons x xs ih =>
    have hx : x ≠ c := fun he => h (by simp [he])
    have hxs : c ∉ xs := fun hm => h (List.mem_cons_of_mem _ hm)
    simp [find_char, hx, ih hxs]

/-- C13: `FindForwardedExportRva` returns 0 for every forward string
without a period, and for every forward string `A.B` (split at its first
period, `A` being text without NUL) for which no loaded record named
`A.dll`, case-insensitively, passes the header checks.  In both cases the
call of `GetExportRva` is not reached: the result is the same whatever
that call would return, and it is there with no activation of
`GetExportRva` allowed. -/
theorem FindForwardedExportRva_unresolved (mem : Mem) (mods : List LDR_DATA_TABLE_ENTRY) :
    (∀ s : List Nat, 46 ∉ s →
      (∀ fuel, FindForwardedExportRva mem mods fuel s = some 0) ∧
      ∀ callee, FindForwardedExportRva_body callee mem mods s = some 0) ∧
    (∀ A B : List Nat, 46 ∉ A → 0 ∉ A →
      (∀ e ∈ mods, qualifies mem (A ++ [46, 100, 108, 108]) e = false) →
      (∀ fuel, FindForwardedExportRva mem mods fuel (A ++ 46 :: B) = some 0) ∧
      ∀ callee, FindForwardedExportRva_body callee mem mods (A ++ 46 :: B) = some 0) := by
  have h1 : ∀ s : List Nat, 46 ∉ s →
      ∀ callee, FindForwardedExportRva_body callee mem mods s = some 0 := by
    intro s hs callee
    unfold FindForwardedExportRva_body
    rw [find_char_none 46 s hs]
  have h2 : ∀ A B : List Nat, 46 ∉ A → 0 ∉ A →
      (∀ e ∈ mods, qualifies mem (A ++ [46, 100, 108, 108]) e = false) →
      ∀ callee, FindForwardedExportRva_body callee mem mods (A ++ 46 :: B) = some 0 := by
    intro A B hdot hnul hq callee
    rw [FindForwardedExportRva_body_split callee mem mods A B hdot hnul,
      GetModuleAddress_none mem mods _ hq]
    rfl
  exact ⟨fun s hs => ⟨fun fuel => h1 s hs _, h1 s hs⟩,
    fun A B hdot hnul hq => ⟨fun fuel => h2 A B hdot hnul hq _, h2 A B hdot hnul hq⟩⟩

theorem FindForwardedExportRva_unresolved_witness :
    FindForwardedExportRva mem_ab mods_ab 0 [110, 111, 100, 111, 116] = some 0 ∧
    FindForwardedExportRva mem_ab mods_ab 0 ([99] ++ 46 :: [103]) = some 0 :=
  ⟨((FindForwardedExportRva_unresolved mem_ab mods_ab).1 [110, 111, 100, 111, 116]
      (by decide)).1 0,
   ((FindForwardedExportRva_unresolved mem_ab mods_ab).2 [99] [103] (by decide) (by decide)
      (by decide)).1 0⟩

/-- C14: for a forward string `A.B` (split at its first period, `A` being
text without NUL) whose module `A.dll` is loaded and passes the header
checks, while no name of that module's export directory equals `B`,
`FindForwardedExportRva` returns 0. -/
theorem FindForwardedExportRva_missing_export (mem : Mem) (mods : List LDR_DATA_TABLE_ENTRY)
    (fuel : Nat) (A B : List Nat) (e : LDR_DATA_TABLE_ENTRY)
    (hdot : 46 ∉ A) (hnul : 0 ∉ A)
    (he : mods.find? (qualifies mem (A ++ [46, 100, 108, 108])) = some e)
    (hB : ∀ k, k < NumberOfNames mem e.DllBase → name_differs mem e.DllBase B k) :
    FindForwardedExportRva mem mods (fuel + 1) (A ++ 46 :: B) = some 0 := by
  rw [FindForwardedExportRva, FindForwardedExportRva_body_split _ mem mods A B hdot hnul,
    GetModuleAddress_find, he]
  simp only
  split
  · rfl
  · rw [GetExportRva_succ]
    exact GetExportRva_loop_by_name_none _ mem e.DllBase B 0 _ 0
      (fun k _ _ h3 => name_differs_exists (hB k h3))

theorem FindForwardedExportRva_missing_export_witness :
    mods_ab.find? (qualifies mem_ab ([98] ++ [46, 100, 108, 108])) =
      some ⟨0x20000, [66, 46, 68, 76, 76, 0]⟩ ∧
    FindForwardedExportRva mem_ab mods_ab 1 ([98] ++ 46 :: [122, 122]) = some 0 :=
  ⟨by decide,
   FindForwardedExportRva_missing_export mem_ab mods_ab 0 [98] [122, 122]
     ⟨0x20000, [66, 46, 68, 76, 76, 0]⟩ (by decide) (by decide) (by decide) (by decide)⟩

/-! ## Narrow names -/

/-- C16: for a narrow module name (single-byte characters, none of them
NUL), the narrow `GetModuleAddress` returns what the wide
`GetModuleAddress` returns on the name widened character by character;
widening keeps every character's code. -/
theorem GetModuleAddressNarrow_eq_wide (mem : Mem) (mods : List LDR_DATA_TABLE_ENTRY)
    (module_name : List Nat) (h : 0 ∉ module_name) :
    GetModuleAddressNarrow mem mods module_name = GetModuleAddress mem mods module_name := by
  have hall : ∀ c ∈ module_name, (fun c => c != 0) c = true := by
    intro c hc
    have : c ≠ 0 := fun he => h (he ▸ hc)
    simpa using this
  have hconv : mbstowcs_s module_name module_name.length = module_name := by
    unfold mbstowcs_s view_of_buffer
    rw [List.take_length]
    exact takeWhile_all _ _ hall
  have hview : view_of_buffer (module_name ++ [0]) = module_name := by
    unfold view_of_buffer
    exact takeWhile_append_stop _ _ _ _ hall rfl
  unfold GetModuleAddressNarrow
  simp only [hconv, hview]

theorem GetModuleAddressNarrow_eq_wide_witness :
    0 ∉ [66, 46, 100, 108, 108] ∧
    GetModuleAddressNarrow mem_ab mods_ab [66, 46, 100, 108, 108] = (0x20000, 0x4000) ∧
    GetModuleAddressNarrow mem_ab mods_ab [66, 46, 100, 108, 108] =
      GetModuleAddress mem_ab mods_ab [66, 46, 100, 108, 108] :=
  ⟨by decide, by decide,
   GetModuleAddressNarrow_eq_wide mem_ab mods_ab [66, 46, 100, 108, 108] (by decide)⟩

/-! ## Addresses from relative addresses -/

theorem read32_lt (mem : Mem) (a : Nat) : read32 mem a < 4294967296 := by
  have h1 := read16_lt mem a
  have h2 := read16_lt mem (a + 2)
  unfold read32
  omega

theorem GetSectionRva_fst_lt (mem : Mem) (base : Nat) (name : List Nat) :
    (GetSectionRva mem base name).1 < 4294967296 := by
  rw [GetSectionRva_eq_find]
  split
  · exact read32_lt _ _
  · norm_num

theorem FindForwardedExportRva_body_lt (c : Nat → List Nat → Option Nat)
    (h : ∀ a s r, c a s = some r → r < 4294967296) (mem : Mem)
    (mods : List LDR_DATA_TABLE_ENTRY) (s : List Nat) (r : Nat)
    (hr : FindForwardedExportRva_body c mem mods s = some r) : r < 4294967296 := by
  unfold FindForwardedExportRva_body at hr
  split at hr
  · simp only [Option.some.injEq] at hr; omega
  · simp only at hr
    split at hr
    · simp only [Option.some.injEq] at hr; omega
    · exact h _ _ _ hr

theorem resolve_slot_lt (fwd : List Nat → Option Nat)
    (h : ∀ s r, fwd s = some r → r < 4294967296) (mem : Mem) (base i r : Nat)
    (hr : resolve_slot fwd mem base i = some r) : r < 4294967296 := by
  unfold resolve_slot at hr
  simp only at hr
  split at hr
  · cases hc : c_str mem (u64 (base + function_rva_at mem base i)) with
    | none => rw [hc] at hr; simp at hr
    | some s => rw [hc] at hr; exact h s r hr
  · simp only [Option.some.injEq] at hr
    rw [← hr]
    exact read32_lt _ _

theorem GetExportRva_loop_lt (fwd : List Nat → Option Nat)
    (h : ∀ s r, fwd s = some r → r < 4294967296) (mem : Mem) (base : Nat)
    (name : List Nat) (by_ordinal : Bool) (ordinal r n s : Nat)
    (hr : GetExportRva_loop fwd mem base name by_ordinal ordinal n s = some r) :
    r < 4294967296 := by
  induction n generalizing s with
  | zero =>
    simp only [GetExportRva_loop, Option.some.injEq] at hr
    omega
  | succ n ih =>
    rw [GetExportRva_loop] at hr
    split at hr
    · split at hr
      · exact ih _ hr
      · exact resolve_slot_lt fwd h mem base s r hr
    · split at hr
      · simp only [Option.some.injEq] at hr; omega
      · cases hf : found_export_name mem base s with
        | none => rw [hf] at hr; simp at hr
        | some found =>
          rw [hf] at hr
          simp only at hr
          split at hr
          · exact ih _ hr
          · exact resolve_slot_lt fwd h mem base s r hr

theorem GetExportRva_lt (mem : Mem) (mods : List LDR_DATA_TABLE_ENTRY) (fuel : Nat) :
    ∀ (base : Nat) (name : List Nat) (by_ordinal : Bool) (ordinal r : Nat),
      GetExportRva mem mods fuel base name by_ordinal ordinal = some r → r < 4294967296 := by
  induction fuel with
  | zero => intro base name b o r hr; simp [GetExportRva] at hr
  | succ fuel ih =>
    intro base name b o r hr
    rw [GetExportRva_succ] at hr
    refine GetExportRva_loop_lt _ ?_ mem base name b o r _ 0 hr
    intro s r2 hs
    exact FindForwardedExportRva_body_lt _ (fun a s2 r3 h3 => ih a s2 false 0 r3 h3)
      mem mods s r2 hs

theorem u64_add_ne_self (base rva : Nat) (h0 : rva ≠ 0) (hr : rva < 4294967296) :
    u64 (base + rva) ≠ base := by
  unfold u64
  omega

/-- C15: `GetSectionAddress` returns `(0, 0)` when the relative address
from `GetSectionRva` is 0 and `(module base + rva, size)`, in 64-bit
arithmetic, otherwise; `GetExportAddress` returns 0 when `GetExportRva`
returns 0 and `module base + rva` otherwise; for a (nonzero) module base
neither result is the bare module base. -/
theorem address_adds_base_to_nonzero_rva (mem : Mem) (mods : List LDR_DATA_TABLE_ENTRY)
    (fuel base : Nat) (section_name export_name : List Nat) (by_ordinal : Bool)
    (ordinal : Nat) :
    ((GetSectionRva mem base section_name).1 = 0 →
      GetSectionAddress mem base section_name = (0, 0)) ∧
    ((GetSectionRva mem base section_name).1 ≠ 0 →
      GetSectionAddress mem base section_name =
        (u64 (base + (GetSectionRva mem base section_name).1),
         (GetSectionRva mem base section_name).2)) ∧
    (GetExportRva mem mods fuel base export_name by_ordinal ordinal = some 0 →
      GetExportAddress mem mods fuel base export_name by_ordinal ordinal = some 0) ∧
    (∀ rva, rva ≠ 0 →
      GetExportRva mem mods fuel base export_name by_ordinal ordinal = some rva →
      GetExportAddress mem mods fuel base export_name by_ordinal ordinal =
        some (u64 (base + rva))) ∧
    (base ≠ 0 →
      (GetSectionAddress mem base section_name).1 ≠ base ∧
      GetExportAddress mem mods fuel base export_name by_ordinal ordinal ≠ some base) := by
  refine ⟨fun h => by simp [GetSectionAddress, h], fun h => by simp [GetSectionAddress, h],
    fun h => by simp [GetExportAddress, h], fun rva h0 h => by simp [GetExportAddress, h, h0],
    fun hb => ⟨?_, ?_⟩⟩
  · unfold GetSectionAddress
    simp only
    split
    · exact fun he => hb he.symm
    · rename_i h0
      exact u64_add_ne_self base _ h0 (GetSectionRva_fst_lt mem base section_name)
  · unfold GetExportAddress
    cases hr : GetExportRva mem mods fuel base export_name by_ordinal ordinal with
    | none => simp
    | some rva =>
      simp only [Option.map_some', ne_eq, Option.some.injEq]
      split
      · exact fun he => hb he.symm
      · rename_i h0
        exact u64_add_ne_self base rva h0
          (GetExportRva_lt mem mods fuel base export_name by_ordinal ordinal rva hr)

theorem address_adds_base_to_nonzero_rva_witness :
    (GetSectionAddress mem_sections 0x400000 [46, 100, 97, 116, 97] = (0x403000, 0x200) ∧
      GetSectionAddress mem_sections 0x400000 [46, 114, 115, 114, 99] = (0, 0)) ∧
    (GetExportAddress mem_ab mods_ab 1 0x10000 [104] false 0 = some 0x12000 ∧
      GetExportAddress mem_ab mods_ab 1 0x10000 [122, 122] false 0 = some 0) ∧
    GetExportAddress mem_ab mods_ab 1 0x10000 [104] false 0 ≠ some 0x10000 :=
  ⟨⟨((address_adds_base_to_nonzero_rva mem_sections [] 0 0x400000 [46, 100, 97, 116, 97]
        [] false 0).2.1 (by decide)).trans (by decide),
     (address_adds_base_to_nonzero_rva mem_sections [] 0 0x400000 [46, 114, 115, 114, 99]
        [] false 0).1 (by decide)⟩,
   ⟨((address_adds_base_to_nonzero_rva mem_ab mods_ab 1 0x10000 [] [104] false 0).2.2.2.1
        0x2000 (by decide) (by decide)).trans (by decide),
     (address_adds_base_to_nonzero_rva mem_ab mods_ab 1 0x10000 [] [122, 122] false
        0).2.2.1 (by decide)⟩,
   ((address_adds_base_to_nonzero_rva mem_ab mods_ab 1 0x10000 [] [104] false 0).2.2.2.2
      (by decide)).2⟩

/-! ## Reads of the index array -/

theorem GetExportRva_loop_traced_fst (fwd : List Nat → Option Nat) (mem : Mem) (base : Nat)
    (name : List Nat) (by_ordinal : Bool) (ordinal n s : Nat) :
    (GetExportRva_loop_traced fwd mem base name by_ordinal ordinal n s).1 =
      GetExportRva_loop fwd mem base name by_ordinal ordinal n s := by
  induction n generalizing s with
  | zero => rfl
  | succ n ih =>
    rw [GetExportRva_loop_traced, GetExportRva_loop]
    split
    · split
      · exact ih _
      · rfl
    · split
      · rfl
      · cases hf : found_export_name mem base s with
        | none => rfl
        | some found =>
          simp only
          split
          · exact ih _
          · rfl

theorem GetExportRva_traced_fst (mem : Mem) (mods : List LDR_DATA_TABLE_ENTRY)
    (fuel base : Nat) (name : List Nat) (by_ordinal : Bool) (ordinal : Nat) :
    (GetExportRva_traced mem mods fuel base name by_ordinal ordinal).1 =
      GetExportRva mem mods (fuel + 1) base name by_ordinal ordinal := by
  rw [GetExportRva_succ]
  exact GetExportRva_loop_traced_fst _ mem base name by_ordinal ordinal _ 0

theorem GetExportRva_loop_traced_by_name_reads (fwd : List Nat → Option Nat) (mem : Mem)
    (base : Nat) (name : List Nat) (ordinal n s : Nat) :
    ∀ i ∈ (GetExportRva_loop_traced fwd mem base name false ordinal n s).2,
      i < NumberOfNames mem base := by
  induction n generalizing s with
  | zero => intro i hi; simp [GetExportRva_loop_traced] at hi
  | succ n ih =>
    intro i hi
    rw [GetExportRva_loop_traced] at hi
    simp only [Bool.false_eq_true, if_false] at hi
    split at hi
    · simp at hi
    · rename_i hN
      cases hf : found_export_name mem base s with
      | none => rw [hf] at hi; simp at hi
      | some found =>
        rw [hf] at hi
        simp only at hi
        split at hi
        · exact ih _ i hi
        · simp only [List.mem_singleton] at hi
          omega

/-- C18: the by-name path of `GetExportRva` reads `entry_index_array` only
at indices below `NumberOfNames`, but the by-ordinal path reads it at every
index up to `NumberOfFunctions`: on `mem_ordinal_only`
(`NumberOfFunctions = 2`, `NumberOfNames = 1`) the lookup of ordinal 2
reads the array at index 1, past its single entry. -/
theorem GetExportRva_by_ordinal_reads_past_NumberOfNames :
    (∀ (mem : Mem) (mods : List LDR_DATA_TABLE_ENTRY) (fuel base : Nat) (name : List Nat)
        (ordinal : Nat),
      ∀ i ∈ (GetExportRva_traced mem mods fuel base name false ordinal).2,
        i < NumberOfNames mem base) ∧
    NumberOfFunctions mem_ordinal_only 0x10000 = 2 ∧
    NumberOfNames mem_ordinal_only 0x10000 = 1 ∧
    GetExportRva_traced mem_ordinal_only [] 0 0x10000 [] true 2 = (some 0, [0, 1]) ∧
    GetExportRva mem_ordinal_only [] 1 0x10000 [] true 2 = some 0 :=
  ⟨fun mem mods fuel base name ordinal =>
      GetExportRva_loop_traced_by_name_reads _ mem base name ordinal _ 0,
   by decide, by decide, by decide, by decide⟩

/-! ## Lookup by ordinal -/

/-- C19: by-ordinal `GetExportRva` compares the requested ordinal, as it
is, with the 16-bit value `Base + entry_index_array[i]` for the slots `i`
below `NumberOfFunctions` in increasing order.  For the least matching
slot `i` whose function RVA `function_array[entry_index_array[i]]` is not
a forward, that RVA is the result; when no slot matches, the result is 0. -/
theorem GetExportRva_by_ordinal_scan (mem : Mem) (mods : List LDR_DATA_TABLE_ENTRY)
    (fuel base : Nat) (name : List Nat) (o : Nat) :
    (∀ i, i < NumberOfFunctions mem base →
      o = (Base mem base % 2 ^ 16 + entry_index mem base i) % 2 ^ 16 →
      (∀ k, k < i → o ≠ (Base mem base % 2 ^ 16 + entry_index mem base k) % 2 ^ 16) →
      ¬ in_export_directory mem base (function_rva_at mem base i) →
      GetExportRva mem mods (fuel + 1) base name true o =
        some (read32 mem (function_array mem base + 4 * entry_index mem base i))) ∧
    ((∀ k, k < NumberOfFunctions mem base →
        o ≠ (Base mem base % 2 ^ 16 + entry_index mem base k) % 2 ^ 16) →
      GetExportRva mem mods (fuel + 1) base name true o = some 0) := by
  constructor
  · intro i hF hi hk hfw
    have hm : matched_slot mem base name true o i := by
      refine ⟨hF, ?_⟩
      simp only [if_true]
      exact ⟨hi, hk⟩
    rw [GetExportRva_matched mem mods fuel base name true o i hm]
    unfold resolve_slot
    simp only
    rw [if_neg (fun h => hfw ((is_forward_iff _ _ _).1 h))]
    rfl
  · intro hk
    rw [GetExportRva_succ]
    exact GetExportRva_loop_by_ordinal_none _ mem base name o _ 0
      (fun k _ h2 => hk k (by omega))

theorem GetExportRva_by_ordinal_scan_witness :
    GetExportRva mem_ab mods_ab 1 0x10000 [] true 6 = some 0x2000 ∧
    GetExportRva mem_ab mods_ab 1 0x10000 [] true 9 = some 0 :=
  ⟨((GetExportRva_by_ordinal_scan mem_ab mods_ab 0 0x10000 [] 6).1 1
      (by decide) (by decide) (by decide) (by decide)).trans (by decide),
   (GetExportRva_by_ordinal_scan mem_ab mods_ab 0 0x10000 [] 9).2 (by decide)⟩

/-! ## Independence of the selectors -/

theorem GetExportRva_loop_by_ordinal_name (fwd : List Nat → Option Nat) (mem : Mem)
    (base : Nat) (name name2 : List Nat) (ordinal n s : Nat) :
    GetExportRva_loop fwd mem base name true ordinal n s =
      GetExportRva_loop fwd mem base name2 true ordinal n s := by
  induction n generalizing s with
  | zero => rfl
  | succ n ih =>
    rw [GetExportRva_loop, GetExportRva_loop]
    simp only [if_true, ih]

theorem GetExportRva_loop_by_name_ordinal (fwd : List Nat → Option Nat) (mem : Mem)
    (base : Nat) (name : List Nat) (ordinal ordinal2 n s : Nat) :
    GetExportRva_loop fwd mem base name false ordinal n s =
      GetExportRva_loop fwd mem base name false ordinal2 n s := by
  induction n generalizing s with
  | zero => rfl
  | succ n ih =>
    rw [GetExportRva_loop, GetExportRva_loop]
    simp only [Bool.false_eq_true, if_false, ih]

/-- C20: the two selectors of `GetExportRva` do not interfere: by ordinal
the result is the same for every `export_name`, and by name it is the same
for every `ordinal`, on the same memory and module list. -/
theorem GetExportRva_selectors_independent (mem : Mem) (mods : List LDR_DATA_TABLE_ENTRY)
    (fuel base : Nat) :
    (∀ (name name2 : List Nat) (ordinal : Nat),
      GetExportRva mem mods fuel base name true ordinal =
        GetExportRva mem mods fuel base name2 true ordinal) ∧
    (∀ (name : List Nat) (ordinal ordinal2 : Nat),
      GetExportRva mem mods fuel base name false ordinal =
        GetExportRva mem mods fuel base name false ordinal2) := by
  cases fuel with
  | zero => exact ⟨fun _ _ _ => rfl, fun _ _ _ => rfl⟩
  | succ fuel =>
    constructor
    · intro name name2 ordinal
      rw [GetExportRva_succ, GetExportRva_succ]
      exact GetExportRva_loop_by_ordinal_name _ mem base name name2 ordinal _ 0
    · intro name ordinal ordinal2
      rw [GetExportRva_succ, GetExportRva_succ]
      exact GetExportRva_loop_by_name_ordinal _ mem base name ordinal ordinal2 _ 0

end module
